import Mathlib

/-
Verification development for the vmgc semi-space garbage collector:
a shallow embedding, in Lean 4, of the allocator (src/space.rs), the
NaN-boxed tagged value (src/pointer.rs), and the heap with its rooting
tables and copying collector (src/heap.rs, src/object.rs), together with
theorems settling the specified properties against the embedding.
-/

set_option maxRecDepth 4000

namespace Vmgc

/-- Error sum type from src/types.rs (`GCError`). -/
inductive GCError
  | osOutOfMemory
  | noSpace
  | typeError
deriving DecidableEq, Repr

/-- Number of values of `usize` on the 64-bit targets the crate builds for. -/
def USIZE : Nat := 2 ^ 64

/-- Rust `usize::checked_add`: `none` when the exact sum does not fit in 64 bits. -/
def checkedAdd (a b : Nat) : Option Nat :=
  if a + b < USIZE then some (a + b) else none

/-! ## Byte-level Space (src/space.rs)

The `base` pointer is abstracted away: `next` is the offset of the bump
pointer from `base` (so `used_bytes = next`), and `mem i` is the byte
stored at offset `i`.  `Space::new` receives the region from the OS
allocator with arbitrary (dirty) contents. -/

structure Space where
  size_in_bytes : Nat
  next : Nat
  mem : Nat → Nat

namespace Space

/-- Space::new (space.rs:16): fresh region of the given size, bump pointer at
the base, contents arbitrary (`dirty`). -/
def new (size_in_bytes : Nat) (dirty : Nat → Nat) : Space :=
  { size_in_bytes := size_in_bytes, next := 0, mem := dirty }

/-- Space::used_bytes (space.rs:47): `next.offset_from(base)`. -/
def used_bytes (s : Space) : Nat := s.next

/-- Space::free_bytes (space.rs:51). -/
def free_bytes (s : Space) : Nat := s.size_in_bytes - s.used_bytes

/-- Space::alloc (space.rs:34-45): fail with `NoSpace` when
`used_bytes.checked_add(size)` overflows or exceeds `size_in_bytes`;
otherwise return the old bump pointer, advance `next` by `size` and
zero-fill the reserved bytes (`result.write_bytes(0, size)`). -/
def alloc (s : Space) (size : Nat) : Except GCError (Nat × Space) :=
  match checkedAdd s.used_bytes size with
  | none => .error .noSpace
  | some allocated =>
    if allocated > s.size_in_bytes then .error .noSpace
    else
      .ok (s.next,
        { s with
          next := s.next + size,
          mem := fun i => if s.next ≤ i ∧ i < s.next + size then 0 else s.mem i })

theorem alloc_ok (s : Space) (n : Nat)
    (hsz : s.size_in_bytes < USIZE) (h : s.used_bytes + n ≤ s.size_in_bytes) :
    s.alloc n = .ok (s.next,
      { s with
        next := s.next + n,
        mem := fun i => if s.next ≤ i ∧ i < s.next + n then 0 else s.mem i }) := by
  unfold alloc checkedAdd
  have hlt : s.used_bytes + n < USIZE := lt_of_le_of_lt h hsz
  simp [hlt, Nat.not_lt.mpr h]

theorem alloc_err (s : Space) (n : Nat) (h : s.used_bytes + n > s.size_in_bytes) :
    s.alloc n = .error .noSpace := by
  unfold alloc checkedAdd
  by_cases hof : s.used_bytes + n < USIZE
  · simp [hof, h]
  · simp [hof]

end Space

/-- Claim C4. For every Space and request size `n` (with the space well
formed: `used ≤ size < 2^64`, `n` a `usize`), `Space::alloc n` fails with
`NoSpace` exactly when `used + n > size`, the sum computed exactly;
allocating exactly `free_bytes` succeeds and allocating `free_bytes + 1`
fails; on success the returned pointer is the old bump pointer, the bump
pointer advances by `n`, the `n` reserved bytes are zero-filled, and the
capacity is unchanged. -/
theorem space_alloc_spec (s : Space) (n : Nat)
    (hused : s.used_bytes ≤ s.size_in_bytes) (hsz : s.size_in_bytes < USIZE) :
    (s.alloc n = .error .noSpace ↔ s.used_bytes + n > s.size_in_bytes)
    ∧ (∃ p s', s.alloc s.free_bytes = .ok (p, s'))
    ∧ s.alloc (s.free_bytes + 1) = .error .noSpace
    ∧ (∀ p s', s.alloc n = .ok (p, s') →
        p = s.next ∧ s'.next = s.next + n
          ∧ (∀ i, s.next ≤ i → i < s.next + n → s'.mem i = 0)
          ∧ s'.size_in_bytes = s.size_in_bytes) := by
  refine ⟨⟨fun herr => ?_, fun hgt => Space.alloc_err s n hgt⟩, ?_, ?_, ?_⟩
  · by_contra hle
    rw [Space.alloc_ok s n hsz (Nat.not_lt.mp hle)] at herr
    cases herr
  · refine ⟨s.next, _, Space.alloc_ok s s.free_bytes hsz ?_⟩
    have : s.used_bytes + (s.size_in_bytes - s.used_bytes) = s.size_in_bytes :=
      Nat.add_sub_cancel' hused
    unfold Space.free_bytes
    omega
  · apply Space.alloc_err
    unfold Space.free_bytes
    omega
  · intro p s' hok
    rw [Space.alloc_ok s n hsz ?_] at hok
    · cases hok
      refine ⟨rfl, rfl, fun i hi1 hi2 => ?_, rfl⟩
      simp [hi1, hi2]
    · by_contra hgt
      rw [Space.alloc_err s n (Nat.not_le.mp hgt)] at hok
      cases hok

/-- Witness for C4 at a concrete Space: size 10, 3 bytes used, dirty memory. -/
theorem space_alloc_spec_witness :
    ((Space.mk 10 3 fun _ => 7).alloc 8 = .error .noSpace)
    ∧ (∀ p s', (Space.mk 10 3 fun _ => 7).alloc 4 = .ok (p, s') →
        p = 3 ∧ s'.next = 7 ∧ (∀ i, 3 ≤ i → i < 7 → s'.mem i = 0)
          ∧ s'.size_in_bytes = 10) := by
  have h := space_alloc_spec (Space.mk 10 3 fun _ => 7) 4 (by decide) (by decide)
  have h8 := space_alloc_spec (Space.mk 10 3 fun _ => 7) 8 (by decide) (by decide)
  refine ⟨h8.1.mpr (by decide), fun p s' hok => ?_⟩
  have := h.2.2.2 p s' hok
  simpa using this

/-! ## NaN-boxed tagged value (src/pointer.rs)

The 64-bit union `TaggedPtr` is modelled by its bit pattern, a natural
number below `2^64`.  A double is identified with its IEEE-754 bit
pattern, which is exactly what `From<f64> for TaggedPtr` stores. -/

def SIGN_MASK : Nat := 1 <<< 63

def QUIET_NAN_MASK : Nat := 0x7ffc000000000000

/-- Pointer tag: sign and quiet-NaN bits all set (pointer.rs:20). -/
def PTR_TAG_MASK : Nat := SIGN_MASK ||| QUIET_NAN_MASK

/-- Rust `!PTR_TAG_MASK` on a 64-bit usize (pointer.rs:22). -/
def PTR_MASK : Nat := (USIZE - 1) ^^^ PTR_TAG_MASK

def TAG_NULL : Nat := 1
def TAG_FALSE : Nat := 2
def TAG_TRUE : Nat := 3

structure TaggedPtr where
  bits : Nat
deriving DecidableEq, Repr

namespace TaggedPtr

def NULL : TaggedPtr := ⟨QUIET_NAN_MASK ||| TAG_NULL⟩
def FALSE : TaggedPtr := ⟨QUIET_NAN_MASK ||| TAG_FALSE⟩
def TRUE : TaggedPtr := ⟨QUIET_NAN_MASK ||| TAG_TRUE⟩

/-- TaggedPtr::is_num (pointer.rs:48): it is a number if it is not a quiet NaN. -/
def is_num (t : TaggedPtr) : Prop := t.bits &&& QUIET_NAN_MASK ≠ QUIET_NAN_MASK

instance (t : TaggedPtr) : Decidable t.is_num := by unfold is_num; infer_instance

/-- TaggedPtr::is_ptr (pointer.rs:53). -/
def is_ptr (t : TaggedPtr) : Prop := t.bits &&& PTR_TAG_MASK = PTR_TAG_MASK

instance (t : TaggedPtr) : Decidable t.is_ptr := by unfold is_ptr; infer_instance

def is_true_singleton (t : TaggedPtr) : Prop := t.bits = TRUE.bits

def is_false_singleton (t : TaggedPtr) : Prop := t.bits = FALSE.bits

def is_null (t : TaggedPtr) : Prop := t.bits = NULL.bits

instance (t : TaggedPtr) : Decidable t.is_true_singleton := by
  unfold is_true_singleton; infer_instance

instance (t : TaggedPtr) : Decidable t.is_false_singleton := by
  unfold is_false_singleton; infer_instance

instance (t : TaggedPtr) : Decidable t.is_null := by unfold is_null; infer_instance

/-- Modelled from the spec: `TaggedPtr::is_bool` is called from heap.rs:300 and
object.rs:125 but has no definition under src/; per spec section 4.3 the kind
predicate holds exactly for the two boolean singleton encodings. -/
def is_bool (t : TaggedPtr) : Prop := t.is_true_singleton ∨ t.is_false_singleton

instance (t : TaggedPtr) : Decidable t.is_bool := by unfold is_bool; infer_instance

/-- From f64 (pointer.rs:84): the union stores the double itself, so the
tagged bit pattern is the double's bit pattern. -/
def from_double (bits : Nat) : TaggedPtr := ⟨bits⟩

/-- TryInto f64 (pointer.rs:90-99): the result is the stored double, returned
here as its bit pattern. -/
def try_into_f64 (t : TaggedPtr) : Except GCError Nat :=
  if t.is_num then .ok t.bits else .error .typeError

/-- From bool (pointer.rs:101). -/
def from_bool (b : Bool) : TaggedPtr := if b then TRUE else FALSE

/-- TryFrom TaggedPtr for bool (pointer.rs:114-125). -/
def try_into_bool (t : TaggedPtr) : Except GCError Bool :=
  if t.is_true_singleton then .ok true
  else if t.is_false_singleton then .ok false
  else .error .typeError

/-- From ObjectPtr (pointer.rs:127-133): the payload address with the pointer
tag set. -/
def from_object (addr : Nat) : TaggedPtr := ⟨addr ||| PTR_TAG_MASK⟩

/-- TryFrom TaggedPtr for ObjectPtr (pointer.rs:135-144). -/
def try_into_object (t : TaggedPtr) : Except GCError Nat :=
  if t.is_ptr then .ok (t.bits &&& PTR_MASK) else .error .typeError

end TaggedPtr

/-- Claim C5. For every tagged value, each type-narrowing conversion to a
kind other than the value's stored kind returns `TypeError`: tagged-to-double
fails whenever the value is not a number (so for every bool singleton,
pointer, and null), tagged-to-bool fails whenever it is not the true/false
singleton (so for every number, pointer, and null), and tagged-to-object
fails whenever it is not a pointer (so for every number, bool singleton, and
null).  The three implications are independent, so every mismatched
kind/conversion pair is covered.  Each conversion takes the `Copy` value
`self` by value and returns only a fresh result, so the source's 64-bit
encoding is untouched; the embedding states this by computing each
conversion as a pure function of the unchanged `bits`. -/
theorem taggedptr_mismatched_conversions (t : TaggedPtr) :
    (¬ t.is_num → t.try_into_f64 = .error .typeError)
    ∧ (¬ t.is_bool → t.try_into_bool = .error .typeError)
    ∧ (¬ t.is_ptr → t.try_into_object = .error .typeError) := by
  refine ⟨fun hnum => ?_, fun hbool => ?_, fun hptr => ?_⟩
  · simp [TaggedPtr.try_into_f64, hnum]
  · have h1 : ¬ t.is_true_singleton := fun h => hbool (Or.inl h)
    have h2 : ¬ t.is_false_singleton := fun h => hbool (Or.inr h)
    simp [TaggedPtr.try_into_bool, h1, h2]
  · simp [TaggedPtr.try_into_object, hptr]

/-- Witness for C5 at one source value of every stored kind: the number
`+0.0` fails the bool and object conversions, the true singleton fails the
double and object conversions, a tagged object pointer fails the double and
bool conversions, and the null singleton fails all three. -/
theorem taggedptr_mismatched_conversions_witness :
    ((TaggedPtr.from_double 0).try_into_bool = .error .typeError
      ∧ (TaggedPtr.from_double 0).try_into_object = .error .typeError)
    ∧ (TaggedPtr.TRUE.try_into_f64 = .error .typeError
      ∧ TaggedPtr.TRUE.try_into_object = .error .typeError)
    ∧ ((TaggedPtr.from_object 0x1000).try_into_f64 = .error .typeError
      ∧ (TaggedPtr.from_object 0x1000).try_into_bool = .error .typeError)
    ∧ (TaggedPtr.NULL.try_into_f64 = .error .typeError
      ∧ TaggedPtr.NULL.try_into_bool = .error .typeError
      ∧ TaggedPtr.NULL.try_into_object = .error .typeError) :=
  ⟨⟨(taggedptr_mismatched_conversions (TaggedPtr.from_double 0)).2.1 (by decide),
    (taggedptr_mismatched_conversions (TaggedPtr.from_double 0)).2.2 (by decide)⟩,
   ⟨(taggedptr_mismatched_conversions TaggedPtr.TRUE).1 (by decide),
    (taggedptr_mismatched_conversions TaggedPtr.TRUE).2.2 (by decide)⟩,
   ⟨(taggedptr_mismatched_conversions (TaggedPtr.from_object 0x1000)).1 (by decide),
    (taggedptr_mismatched_conversions (TaggedPtr.from_object 0x1000)).2.1 (by decide)⟩,
   ⟨(taggedptr_mismatched_conversions TaggedPtr.NULL).1 (by decide),
    (taggedptr_mismatched_conversions TaggedPtr.NULL).2.1 (by decide),
    (taggedptr_mismatched_conversions TaggedPtr.NULL).2.2 (by decide)⟩⟩

/-! ### Claim C7: singleton encodings are disjoint from double encodings -/

/-- A 64-bit pattern is a NaN when the exponent field (bits 62..52) is all
ones and the mantissa (bits 51..0, sign excluded) is nonzero. -/
def isNaNBits (b : Nat) : Prop :=
  (b / 2 ^ 52) % 2 ^ 11 = 0x7ff ∧ ¬ (b % 2 ^ 52 = 0)

instance (b : Nat) : Decidable (isNaNBits b) := by unfold isNaNBits; infer_instance

/-- A signalling NaN: NaN with the quiet bit (bit 51) clear. -/
def isSignallingNaNBits (b : Nat) : Prop := isNaNBits b ∧ b.testBit 51 = false

/-- Modelled from the spec: the quiet NaNs "that might arise from
arithmetic".  IEEE-754 arithmetic on non-NaN operands produces the default
quiet NaN — exponent all ones, quiet bit set, remaining mantissa zero, with
either sign (x86-64 produces the negative one). -/
def isDefaultQuietNaN (b : Nat) : Prop :=
  b = 0x7ff8000000000000 ∨ b = 0xfff8000000000000

instance (b : Nat) : Decidable (isSignallingNaNBits b) := by
  unfold isSignallingNaNBits; infer_instance

instance (b : Nat) : Decidable (isDefaultQuietNaN b) := by
  unfold isDefaultQuietNaN; infer_instance

/-- Modelled from the spec: "every double ... including `+0.0`, `-0.0`, and
every signalling or quiet NaN that might arise from arithmetic": any
non-NaN pattern (this covers both zeroes), any signalling NaN pattern, and
the default quiet NaNs that arithmetic generates. -/
def mightAriseFromArithmetic (b : Nat) : Prop :=
  b < USIZE ∧ (¬ isNaNBits b ∨ isSignallingNaNBits b ∨ isDefaultQuietNaN b)

/-- Claim C7. The three singleton encodings are 64-bit patterns distinct
from the encoding of every double that might arise from arithmetic
(including both zeroes and every signalling or arithmetic quiet NaN):
`from_double` of such a pattern satisfies neither `is_null` nor `is_bool`,
and conversely the singletons satisfy neither `is_num` nor the object
predicate `is_ptr`. -/
theorem singleton_double_disjoint (b : Nat) (h : mightAriseFromArithmetic b) :
    (¬ (TaggedPtr.from_double b).is_null ∧ ¬ (TaggedPtr.from_double b).is_bool
      ∧ TaggedPtr.from_double b ≠ TaggedPtr.NULL
      ∧ TaggedPtr.from_double b ≠ TaggedPtr.FALSE
      ∧ TaggedPtr.from_double b ≠ TaggedPtr.TRUE)
    ∧ (¬ TaggedPtr.NULL.is_num ∧ ¬ TaggedPtr.FALSE.is_num ∧ ¬ TaggedPtr.TRUE.is_num
      ∧ ¬ TaggedPtr.NULL.is_ptr ∧ ¬ TaggedPtr.FALSE.is_ptr ∧ ¬ TaggedPtr.TRUE.is_ptr) := by
  have hneq : b ≠ TaggedPtr.NULL.bits ∧ b ≠ TaggedPtr.FALSE.bits ∧ b ≠ TaggedPtr.TRUE.bits := by
    rcases h.2 with hnot | hsig | hdef
    · refine ⟨?_, ?_, ?_⟩ <;> (intro he; exact hnot (by rw [he]; decide))
    · refine ⟨?_, ?_, ?_⟩ <;>
        (intro he; have := hsig.2; rw [he] at this; exact absurd this (by decide))
    · rcases hdef with h1 | h1 <;> (subst h1; exact ⟨by decide, by decide, by decide⟩)
  refine ⟨⟨?_, ?_, ?_, ?_, ?_⟩, by decide, by decide, by decide, by decide, by decide, by decide⟩
  · exact hneq.1
  · rintro (hb | hb)
    · exact hneq.2.2 hb
    · exact hneq.2.1 hb
  · exact fun he => hneq.1 (congrArg TaggedPtr.bits he)
  · exact fun he => hneq.2.1 (congrArg TaggedPtr.bits he)
  · exact fun he => hneq.2.2 (congrArg TaggedPtr.bits he)

/-- Witness for C7 at three concrete doubles: `+0.0`, `-0.0` and the
default quiet NaN of x86-64 arithmetic. -/
theorem singleton_double_disjoint_witness :
    (¬ (TaggedPtr.from_double 0).is_null ∧ ¬ (TaggedPtr.from_double 0).is_bool)
    ∧ (¬ (TaggedPtr.from_double (2 ^ 63)).is_null
        ∧ ¬ (TaggedPtr.from_double (2 ^ 63)).is_bool)
    ∧ (¬ (TaggedPtr.from_double 0xfff8000000000000).is_null
        ∧ ¬ (TaggedPtr.from_double 0xfff8000000000000).is_bool) := by
  have h0 := singleton_double_disjoint 0 ⟨by decide, Or.inl (by decide)⟩
  have h1 := singleton_double_disjoint (2 ^ 63) ⟨by decide, Or.inl (by decide)⟩
  have h2 := singleton_double_disjoint 0xfff8000000000000
    ⟨by decide, Or.inr (Or.inr (Or.inr rfl))⟩
  exact ⟨⟨h0.1.1, h0.1.2.1⟩, ⟨h1.1.1, h1.1.2.1⟩, ⟨h2.1.1, h2.1.2.1⟩⟩

/-! ## Object-level heap model (src/heap.rs, src/object.rs)

For the heap and collector claims the tagged value is abstracted by its
kind — legitimate because the four kinds' encodings are pairwise disjoint
(claim C7 and `is_ptr`/`is_num` above).  An object pointer is the payload
address (offset of the payload inside its Space); the `ObjectHeader` sits
`HEADER_SIZE` bytes before it.  Every heap object's payload is one
`TraceableObject` cell holding the pointer to the boxed native; the boxed
native is identified by a numeric id, its Rust dynamic type is recorded
for `std::any` downcasts, and the `HeapHandle` fields it owns (what its
`trace` visits) are carried next to the object. -/

/-- Kind-level view of a TaggedPtr (num carries the double's bit pattern,
obj carries the payload address). -/
inductive TVal
  | num (bits : Nat)
  | vnull
  | vbool (b : Bool)
  | obj (addr : Nat)
deriving DecidableEq, Repr

/-- ObjectType (pointer.rs:243): `Host` is the only variant. -/
inductive ObjectType
  | host
deriving DecidableEq, Repr

/-- Rust dynamic types of boxed natives used in this development (the
`std::any` type of the box behind a `TraceableObject`). -/
inductive RustTy
  | stringTy
  | u32Ty
  | listTy
  | mapTy
  | dropObjectTy
deriving DecidableEq, Repr

/-- Value of `std::mem::size_of::<ObjectHeader>()` on x86-64:
usize + u16 (padded) + Option of a raw pointer. -/
def HEADER_SIZE : Nat := 32

/-- Value of `std::mem::size_of::<TraceableObject>()` on x86-64: one fat
pointer `*mut dyn Traceable`. -/
def TRACEABLE_OBJECT_SIZE : Nat := 16

/-- In-Space object: header fields (`object_size`, `object_type`), the
payload word (`native`, the pointer to the boxed native), and the
`HeapHandle` values that native owns and traces.  The header's forwarding
slot (`new_header_ptr`) lives in the collector state, since it is `None`
outside a collection. -/
structure HObj where
  object_size : Nat
  object_type : ObjectType
  native : Nat
  fields : List TVal
deriving DecidableEq, Repr

/-- Object-level Space: capacity, bump offset, and the objects living in
it keyed by payload address. -/
structure SpaceM where
  size : Nat
  next : Nat
  objs : List (Nat × HObj)
deriving DecidableEq, Repr

namespace SpaceM

/-- Space::new at the object level: empty region. -/
def new (size : Nat) : SpaceM := ⟨size, 0, []⟩

/-- Space::alloc at the object level (same arithmetic as the byte-level
`Space.alloc`; the returned address is the old bump pointer, where the
header is written). -/
def alloc (s : SpaceM) (n : Nat) : Except GCError (Nat × SpaceM) :=
  match checkedAdd s.next n with
  | none => .error .noSpace
  | some allocated =>
    if allocated > s.size then .error .noSpace
    else .ok (s.next, { s with next := s.next + n })

theorem allocM_ok (s : SpaceM) (n : Nat)
    (hsz : s.size < USIZE) (h : s.next + n ≤ s.size) :
    s.alloc n = .ok (s.next, { s with next := s.next + n }) := by
  unfold alloc checkedAdd
  have hlt : s.next + n < USIZE := lt_of_le_of_lt h hsz
  simp [hlt, Nat.not_lt.mpr h]

theorem allocM_err (s : SpaceM) (n : Nat) (h : s.next + n > s.size) :
    s.alloc n = .error .noSpace := by
  unfold alloc checkedAdd
  by_cases hof : s.next + n < USIZE
  · simp [hof, h]
  · simp [hof]

theorem alloc_cases (s : SpaceM) (n : Nat) (p : Nat) (s' : SpaceM)
    (hok : s.alloc n = .ok (p, s')) :
    p = s.next ∧ s' = { s with next := s.next + n } ∧ s.next + n ≤ s.size := by
  unfold alloc checkedAdd at hok
  by_cases hof : s.next + n < USIZE
  · simp [hof] at hok
    by_cases hgt : s.next + n > s.size
    · simp [hgt] at hok
    · simp [hgt] at hok
      exact ⟨hok.1.symm, hok.2.symm, Nat.not_lt.mp hgt⟩
  · simp [hof] at hok

end SpaceM

/-! ### Association-list helpers (raw pointers keyed by address) -/

/-- First-match lookup in an address-keyed list. -/
def lookup {α : Type} : List (Nat × α) → Nat → Option α
  | [], _ => none
  | (a, x) :: rest, k => if a = k then some x else lookup rest k

/-- In-place update of the entry with the given key (models a write
through a raw pointer into the Space). -/
def setEntry {α : Type} : List (Nat × α) → Nat → α → List (Nat × α)
  | [], _, _ => []
  | (a, x) :: rest, k, y => if a = k then (a, y) :: rest else (a, x) :: setEntry rest k y

/-- Removal of the entry with the given key (models dropping a box). -/
def removeEntry {α : Type} : List (Nat × α) → Nat → List (Nat × α)
  | [], _ => []
  | (a, x) :: rest, k => if a = k then rest else (a, x) :: removeEntry rest k

theorem lookup_append_some {α : Type} {l₁ : List (Nat × α)} (l₂ : List (Nat × α))
    {k : Nat} {x : α} (h : lookup l₁ k = some x) :
    lookup (l₁ ++ l₂) k = some x := by
  induction l₁ with
  | nil => simp [lookup] at h
  | cons p rest ih =>
    obtain ⟨a, y⟩ := p
    by_cases ha : a = k
    · simp [lookup, ha] at h ⊢; exact h
    · simp [lookup, ha] at h ⊢; exact ih h

theorem lookup_append_none {α : Type} {l₁ : List (Nat × α)} (l₂ : List (Nat × α))
    {k : Nat} (h : lookup l₁ k = none) :
    lookup (l₁ ++ l₂) k = lookup l₂ k := by
  induction l₁ with
  | nil => simp
  | cons p rest ih =>
    obtain ⟨a, y⟩ := p
    by_cases ha : a = k
    · simp [lookup, ha] at h
    · simp [lookup, ha] at h ⊢; exact ih h

theorem lookup_isSome_iff_mem_keys {α : Type} (l : List (Nat × α)) (k : Nat) :
    (lookup l k).isSome ↔ k ∈ l.map Prod.fst := by
  induction l with
  | nil => simp [lookup]
  | cons p rest ih =>
    obtain ⟨a, y⟩ := p
    by_cases ha : a = k
    · simp [lookup, ha]
    · simp [lookup, ha, ih, Ne.symm ha]

theorem lookup_mem {α : Type} {l : List (Nat × α)} {k : Nat} {x : α}
    (h : lookup l k = some x) : (k, x) ∈ l := by
  induction l with
  | nil => simp [lookup] at h
  | cons p rest ih =>
    obtain ⟨a, y⟩ := p
    by_cases ha : a = k
    · subst ha; simp [lookup] at h; simp [h]
    · simp [lookup, ha] at h
      exact List.mem_cons_of_mem _ (ih h)

theorem mem_lookup_of_nodup {α : Type} :
    ∀ {l : List (Nat × α)} {k : Nat} {x : α},
      (l.map Prod.fst).Nodup → (k, x) ∈ l → lookup l k = some x
  | [], _, _, _, h => by simp at h
  | (a, y) :: rest, k, x, hnd, h => by
    rw [List.map_cons, List.nodup_cons] at hnd
    rcases List.mem_cons.mp h with heq | hmem
    · cases heq; simp [lookup]
    · have hne : a ≠ k := fun he =>
        hnd.1 (List.mem_map.mpr ⟨(k, x), hmem, he.symm⟩)
      simp only [lookup, if_neg hne]
      exact mem_lookup_of_nodup hnd.2 hmem

theorem setEntry_keys {α : Type} (l : List (Nat × α)) (k : Nat) (y : α) :
    (setEntry l k y).map Prod.fst = l.map Prod.fst := by
  induction l with
  | nil => simp [setEntry]
  | cons p rest ih =>
    obtain ⟨a, x⟩ := p
    by_cases ha : a = k <;> simp [setEntry, ha, ih]

theorem lookup_setEntry_self {α : Type} {l : List (Nat × α)} {k : Nat} (y : α)
    (h : (lookup l k).isSome) : lookup (setEntry l k y) k = some y := by
  induction l with
  | nil => simp [lookup] at h
  | cons p rest ih =>
    obtain ⟨a, x⟩ := p
    by_cases ha : a = k
    · simp [setEntry, ha, lookup]
    · simp [setEntry, ha, lookup] at h ⊢
      exact ih h

theorem lookup_setEntry_other {α : Type} (l : List (Nat × α)) {k k' : Nat} (y : α)
    (h : k' ≠ k) : lookup (setEntry l k y) k' = lookup l k' := by
  induction l with
  | nil => simp [setEntry]
  | cons p rest ih =>
    obtain ⟨a, x⟩ := p
    by_cases ha : a = k
    · subst ha
      have hak' : a ≠ k' := fun he => h (he.symm)
      simp [setEntry, lookup, hak']
    · by_cases ha' : a = k'
      · simp [setEntry, lookup, ha, ha', h]
      · simp [setEntry, lookup, ha, ha', ih]

/-! ### Sequential layout of objects in a Space -/

/-- Allocation footprint of an object: header plus payload
(`ObjectHeader::alloc_size`, pointer.rs:281). -/
def allocSize (o : HObj) : Nat := HEADER_SIZE + o.object_size

/-- The objects sit contiguously: starting from bump offset `acc`, each
header is written at `acc` and its payload at `acc + HEADER_SIZE`. -/
def layoutOk : Nat → List (Nat × HObj) → Prop
  | _, [] => True
  | acc, (a, o) :: rest => a = acc + HEADER_SIZE ∧ layoutOk (acc + allocSize o) rest

/-- Bump offset after laying out the list from `acc`. -/
def layoutEnd : Nat → List (Nat × HObj) → Nat
  | acc, [] => acc
  | acc, (_, o) :: rest => layoutEnd (acc + allocSize o) rest

instance : ∀ (acc : Nat) (l : List (Nat × HObj)), Decidable (layoutOk acc l)
  | _, [] => .isTrue trivial
  | acc, (a, o) :: rest =>
    have : Decidable (layoutOk (acc + allocSize o) rest) := instDecidableLayoutOk _ _
    by unfold layoutOk; infer_instance

theorem layoutEnd_eq_sum (acc : Nat) (l : List (Nat × HObj)) :
    layoutEnd acc l = acc + (l.map fun p => allocSize p.2).sum := by
  induction l generalizing acc with
  | nil => simp [layoutEnd]
  | cons p rest ih =>
    obtain ⟨a, o⟩ := p
    simp [layoutEnd, ih, Nat.add_assoc]

theorem layoutEnd_append (acc : Nat) (l : List (Nat × HObj)) (a : Nat) (o : HObj) :
    layoutEnd acc (l ++ [(a, o)]) = layoutEnd acc l + allocSize o := by
  rw [layoutEnd_eq_sum, layoutEnd_eq_sum]
  simp [Nat.add_assoc]

theorem layoutOk_append (acc : Nat) (l : List (Nat × HObj)) (a : Nat) (o : HObj)
    (hl : layoutOk acc l) (ha : a = layoutEnd acc l + HEADER_SIZE) :
    layoutOk acc (l ++ [(a, o)]) := by
  induction l generalizing acc with
  | nil => exact ⟨ha, trivial⟩
  | cons p rest ih =>
    obtain ⟨b, q⟩ := p
    refine ⟨hl.1, ih _ hl.2 ?_⟩
    rw [ha]; rfl

theorem layoutOk_key_bound (acc : Nat) (l : List (Nat × HObj)) (hl : layoutOk acc l) :
    ∀ p ∈ l, acc < p.1 ∧ p.1 + p.2.object_size ≤ layoutEnd acc l := by
  induction l generalizing acc with
  | nil => intro p hp; simp at hp
  | cons q rest ih =>
    obtain ⟨b, o⟩ := q
    intro p hp
    rcases List.mem_cons.mp hp with heq | hmem
    · subst heq
      show acc < b ∧ b + o.object_size ≤ layoutEnd acc ((b, o) :: rest)
      have hge : acc + allocSize o ≤ layoutEnd (acc + allocSize o) rest := by
        rw [layoutEnd_eq_sum]; omega
      have hrw : layoutEnd acc ((b, o) :: rest) = layoutEnd (acc + allocSize o) rest := rfl
      rw [hrw, hl.1]
      unfold allocSize HEADER_SIZE at hge ⊢
      omega
    · have h := ih _ hl.2 p hmem
      have : layoutEnd acc ((b, o) :: rest) = layoutEnd (acc + allocSize o) rest := rfl
      rw [this]
      refine ⟨?_, h.2⟩
      unfold allocSize HEADER_SIZE at h
      omega

theorem layoutOk_keys_nodup (acc : Nat) (l : List (Nat × HObj)) (hl : layoutOk acc l) :
    (l.map Prod.fst).Nodup := by
  induction l generalizing acc with
  | nil => simp
  | cons q rest ih =>
    obtain ⟨b, o⟩ := q
    rw [List.map_cons, List.nodup_cons]
    refine ⟨?_, ih _ hl.2⟩
    intro hmem
    obtain ⟨p, hp, hpe⟩ := List.mem_map.mp hmem
    have hb := layoutOk_key_bound _ _ hl.2 p hp
    rw [hpe, hl.1] at hb
    unfold allocSize at hb
    omega

theorem layoutOk_key_lt_next (acc : Nat) (l : List (Nat × HObj)) (hl : layoutOk acc l) :
    ∀ p ∈ l, p.1 < layoutEnd acc l + HEADER_SIZE := by
  intro p hp
  have := layoutOk_key_bound acc l hl p hp
  unfold HEADER_SIZE
  omega

/-! ### The Heap (src/heap.rs `HeapInner`/`Heap`) -/

/-- Heap state: the active Space, the scope stack (one vector of rooted
values per live HandleScope), the globals table, the weak-owner table,
and the map from boxed-native ids to their Rust dynamic type (the box
itself lives outside the Space; `nextNative` provides fresh ids, standing
for the fresh addresses `Box::into_raw` returns). -/
structure HeapM where
  space : SpaceM
  scopes : List (List TVal)
  globals : List (Option TVal)
  weaks : List TVal
  natives : List (Nat × RustTy)
  nextNative : Nat
deriving DecidableEq, Repr

namespace HeapM

/-- Heap::used (heap.rs:82). -/
def used (h : HeapM) : Nat := h.space.next

/-- Heap::emplace (heap.rs:99-107): reserve `HEADER_SIZE + object_size`
bytes where `object_size = size_of::<TraceableObject>()`, write a `Host`
header, store the boxed native into the payload word, push a `weaks`
entry, and return the object (payload) pointer.  The post-state is
returned alongside the result; on `NoSpace` the `?` operator propagates
before any mutation, so the post-state is the input heap. -/
def emplace (h : HeapM) (rty : RustTy) (fields : List TVal) :
    Except GCError Nat × HeapM :=
  match h.space.alloc (HEADER_SIZE + TRACEABLE_OBJECT_SIZE) with
  | .error e => (.error e, h)
  | .ok (headerAddr, sp) =>
    let objectPtr := headerAddr + HEADER_SIZE
    let nid := h.nextNative
    (.ok objectPtr,
      { h with
        space := { sp with
          objs := sp.objs ++ [(objectPtr, ⟨TRACEABLE_OBJECT_SIZE, .host, nid, fields⟩)] },
        weaks := h.weaks ++ [TVal.obj objectPtr],
        natives := h.natives ++ [(nid, rty)],
        nextNative := nid + 1 })

/-- HandleScope::new (heap.rs:154-159): push a fresh frame, remember its
index. -/
def scopePush (h : HeapM) : HeapM × Nat :=
  ({ h with scopes := h.scopes ++ [[]] }, h.scopes.length)

/-- Drop for HandleScope (heap.rs:233-238): `inner.scopes.pop()` — always
pops the most recently pushed frame; the scope's recorded `index` is not
consulted. -/
def scopeDrop (h : HeapM) (index : Nat) : HeapM :=
  { h with scopes := h.scopes.dropLast }

/-- Push of a value onto the frame `si` (used by `HandleScope::add`). -/
def frameAppend : List (List TVal) → Nat → TVal → List (List TVal)
  | [], _, _ => []
  | frame :: rest, 0, v => (frame ++ [v]) :: rest
  | frame :: rest, n + 1, v => frame :: frameAppend rest n v

/-- HandleScope::add (heap.rs:192-198): push the value onto this scope's
frame and return the slot index.  The scope index of a live scope is
always in range. -/
def scopeAdd (h : HeapM) (si : Nat) (v : TVal) : HeapM × Nat :=
  ({ h with scopes := frameAppend h.scopes si v }, (h.scopes.getD si []).length)

/-- HandleScope::create / take / str (heap.rs:175-190): emplace the boxed
native, then root the object pointer in the calling scope.  On `NoSpace`
the error propagates before any scope entry is added. -/
def create (h : HeapM) (si : Nat) (rty : RustTy) (fields : List TVal) :
    Except GCError Nat × HeapM :=
  match h.emplace rty fields with
  | (.error e, h') => (.error e, h')
  | (.ok objectPtr, h') =>
    let p := h'.scopeAdd si (.obj objectPtr)
    (.ok p.2, p.1)

/-- HandleScope::get_ptr (heap.rs:227-230): read slot `idx` of frame `si`. -/
def getLocal (h : HeapM) (si idx : Nat) : Option TVal :=
  match h.scopes.get? si with
  | none => none
  | some frame => frame.get? idx

/-- From LocalHandle for GlobalHandle (heap.rs:429-447): copy the handle's
current tagged value into a fresh globals slot pushed at the end of the
table. -/
def toGlobal (h : HeapM) (si idx : Nat) : Option (HeapM × Nat) :=
  (h.getLocal si idx).map fun v =>
    ({ h with globals := h.globals ++ [some v] }, h.globals.length)

/-- Drop for Root (heap.rs:143-147): `globals[index] = None`. -/
def rootDrop (h : HeapM) (index : Nat) : HeapM :=
  { h with globals := h.globals.set index none }

end HeapM

/-- Heap::new (heap.rs:74-80): the single Space receives half of the
nominal byte budget (`size_in_bytes / 2`, integer division); the root
tables start empty.  `Space::new`'s OS failure is not modelled. -/
def heapNew (size_in_bytes : Nat) : HeapM :=
  { space := SpaceM.new (size_in_bytes / 2), scopes := [], globals := [],
    weaks := [], natives := [], nextNative := 0 }

/-- Claim C3. When the Space lacks free bytes for header plus payload,
`Heap::emplace` — and hence `scope.create`/`take`/`str` — returns
`NoSpace` leaving the heap exactly as it was: no `weaks` entry, no scope
entry, unchanged used bytes, and no collection run as part of the call. -/
theorem emplace_nospace_no_effect (h : HeapM) (si : Nat) (rty : RustTy)
    (fields : List TVal)
    (hfull : h.space.next + (HEADER_SIZE + TRACEABLE_OBJECT_SIZE) > h.space.size) :
    (h.emplace rty fields).1 = .error .noSpace ∧ (h.emplace rty fields).2 = h
    ∧ (h.create si rty fields).1 = .error .noSpace ∧ (h.create si rty fields).2 = h := by
  have herr := SpaceM.allocM_err h.space (HEADER_SIZE + TRACEABLE_OBJECT_SIZE) hfull
  have hemp : h.emplace rty fields = (.error .noSpace, h) := by
    unfold HeapM.emplace
    rw [herr]
  refine ⟨?_, ?_, ?_, ?_⟩ <;> simp [hemp, HeapM.create]

/-- Witness for C3: a heap whose 40-byte Space cannot fit the 48-byte
header-plus-payload of a fresh object. -/
theorem emplace_nospace_no_effect_witness :
    ((heapNew 80).emplace RustTy.stringTy []).1 = .error .noSpace
    ∧ ((heapNew 80).emplace RustTy.stringTy []).2 = heapNew 80
    ∧ ((heapNew 80).create 0 RustTy.stringTy []).1 = .error .noSpace
    ∧ ((heapNew 80).create 0 RustTy.stringTy []).2 = heapNew 80 :=
  emplace_nospace_no_effect (heapNew 80) 0 RustTy.stringTy [] (by decide)

/-- Claim C8. Dropping a GlobalHandle rooted at globals index `i` sets
slot `i` to `none` and leaves every other slot — and the table's length —
unchanged: freed slots become `none` rather than being compacted, so
every other live GlobalHandle's index stays valid.  Creating a global
(`toGlobal`) likewise only pushes a fresh slot at the end. -/
theorem global_drop_stable (h : HeapM) (i : Nat) (hi : i < h.globals.length) :
    (h.rootDrop i).globals[i]? = some none
    ∧ (∀ j, j ≠ i → (h.rootDrop i).globals[j]? = h.globals[j]?)
    ∧ (h.rootDrop i).globals.length = h.globals.length
    ∧ (∀ si idx h' gi, h.toGlobal si idx = some (h', gi) →
        ∀ j, j < h.globals.length → h'.globals[j]? = h.globals[j]?) := by
  refine ⟨?_, ?_, ?_, ?_⟩
  · simp [HeapM.rootDrop, hi]
  · intro j hj
    simp [HeapM.rootDrop, List.getElem?_set_ne (Ne.symm hj)]
  · simp [HeapM.rootDrop]
  · intro si idx h' gi hsome j hj
    unfold HeapM.toGlobal at hsome
    cases hloc : h.getLocal si idx with
    | none => rw [hloc] at hsome; simp at hsome
    | some v =>
      rw [hloc] at hsome
      simp at hsome
      rw [← hsome.1]
      simp [List.getElem?_append_left hj]

/-- Witness for C8 on a concrete three-slot globals table. -/
theorem global_drop_stable_witness :
    ((HeapM.mk (SpaceM.new 100) [] [some TVal.vnull, some (TVal.num 7), none] [] [] 0).rootDrop 1).globals[1]?
        = some none
    ∧ ((HeapM.mk (SpaceM.new 100) [] [some TVal.vnull, some (TVal.num 7), none] [] [] 0).rootDrop 1).globals[0]?
        = some (some TVal.vnull) := by
  have h := global_drop_stable
    (HeapM.mk (SpaceM.new 100) [] [some TVal.vnull, some (TVal.num 7), none] [] [] 0) 1
    (by decide)
  exact ⟨h.1, (h.2.1 0 (by decide)).trans (by decide)⟩

/-- Claim C10. Dropping a HandleScope always pops the most recently
pushed frame of the scope stack, whatever the dropped scope's recorded
index; consequently, dropping two scopes in the opposite order to their
creation removes the second scope's frame first and invalidates its
LocalHandles.  Concretely: with frames `[[num 1], [num 2]]`, dropping the
scope whose recorded index is 0 leaves `[[num 1]]` minus nothing — the
frame `[num 2]` of scope 1 is gone and scope 1's local handle (1,0) no
longer reads a value. -/
theorem scope_drop_pops_last :
    (∀ (h : HeapM) (i : Nat), (h.scopeDrop i).scopes = h.scopes.dropLast)
    ∧ ((HeapM.mk (SpaceM.new 100) [[TVal.num 1], [TVal.num 2]] [] [] [] 0).scopeDrop 0).scopes
        = [[TVal.num 1]]
    ∧ (HeapM.mk (SpaceM.new 100) [[TVal.num 1], [TVal.num 2]] [] [] [] 0).getLocal 1 0
        = some (TVal.num 2)
    ∧ ((HeapM.mk (SpaceM.new 100) [[TVal.num 1], [TVal.num 2]] [] [] [] 0).scopeDrop 0).getLocal 1 0
        = none := by
  refine ⟨fun h i => rfl, by decide, by decide, by decide⟩

/-! ### Downcasting (heap.rs `DowncastTo`) -/

/-- DowncastTo a HostObject target (heap.rs:340-356): get_object_ptr
checks the tagged kind, `is_type(T::TYPE_ID)` compares the header's
`object_type` with the target's type id (`ObjectType::Host` for every
HostObject), then `TraceableObject::try_downcast::<T>` succeeds exactly
when the boxed native's dynamic type is `T`.  On success the same slot is
returned re-typed; the embedding returns the tagged value it denotes. -/
def tryDowncastHost (h : HeapM) (si idx : Nat) (t : RustTy) : Option TVal :=
  match h.getLocal si idx with
  | none => none
  | some v =>
    match v with
    | .obj a =>
      match lookup h.space.objs a with
      | none => none
      | some o =>
        if o.object_type = ObjectType.host then
          match lookup h.natives o.native with
          | none => none
          | some rt => if rt = t then some v else none
        else none
    | _ => none

/-- DowncastTo a f64 target (heap.rs:358-364): `try_into::<f64>().ok()`
then `create_num` roots the number in the same scope. -/
def tryDowncastNum (h : HeapM) (si idx : Nat) : Option (HeapM × Nat) :=
  match h.getLocal si idx with
  | some (.num bits) => some (h.scopeAdd si (.num bits))
  | _ => none

/-- DowncastTo a bool target (heap.rs:366-372): `try_into::<bool>().ok()`
then `create_bool` roots the boolean in the same scope. -/
def tryDowncastBool (h : HeapM) (si idx : Nat) : Option (HeapM × Nat) :=
  match h.getLocal si idx with
  | some (.vbool b) => some (h.scopeAdd si (.vbool b))
  | _ => none

/-- Concrete heap for the downcast matrix: one String object emplaced at
payload address 32, and one scope rooting a bool, a num, a null and that
String. -/
def downcastHeap : HeapM :=
  { space := ⟨100, 48, [(32, ⟨16, .host, 0, []⟩)]⟩,
    scopes := [[TVal.vbool true, TVal.num 7, TVal.vnull, TVal.obj 32]],
    globals := [], weaks := [TVal.obj 32], natives := [(0, .stringTy)],
    nextNative := 1 }

/-- Claim C6. `try_downcast` from an untyped LocalHandle succeeds exactly
when the stored tagged value has the expected kind — and, for object
targets, when additionally the header's `object_type` matches the
target's `TYPE_ID` and the boxed native's dynamic type is the target —
failing to `none` otherwise; concretely, the 4-by-3 matrix over sources
bool/num/null/String and targets String/bool/f64 holds. -/
theorem try_downcast_spec :
    (∀ (h : HeapM) (si idx : Nat) (v : TVal), h.getLocal si idx = some v →
      ((tryDowncastNum h si idx).isSome ↔ ∃ bits, v = .num bits)
      ∧ ((tryDowncastBool h si idx).isSome ↔ ∃ b, v = .vbool b)
      ∧ (∀ t, (tryDowncastHost h si idx t).isSome ↔
          ∃ a o, v = .obj a ∧ lookup h.space.objs a = some o
            ∧ o.object_type = ObjectType.host ∧ lookup h.natives o.native = some t))
    ∧ ((tryDowncastHost downcastHeap 0 0 .stringTy = none
        ∧ (tryDowncastBool downcastHeap 0 0).isSome
        ∧ tryDowncastNum downcastHeap 0 0 = none)
      ∧ (tryDowncastHost downcastHeap 0 1 .stringTy = none
        ∧ tryDowncastBool downcastHeap 0 1 = none
        ∧ (tryDowncastNum downcastHeap 0 1).isSome)
      ∧ (tryDowncastHost downcastHeap 0 2 .stringTy = none
        ∧ tryDowncastBool downcastHeap 0 2 = none
        ∧ tryDowncastNum downcastHeap 0 2 = none)
      ∧ ((tryDowncastHost downcastHeap 0 3 .stringTy).isSome
        ∧ tryDowncastBool downcastHeap 0 3 = none
        ∧ tryDowncastNum downcastHeap 0 3 = none)) := by
  constructor
  · intro h si idx v hv
    refine ⟨?_, ?_, ?_⟩
    · unfold tryDowncastNum
      rw [hv]
      cases v <;> simp
    · unfold tryDowncastBool
      rw [hv]
      cases v <;> simp
    · intro t
      unfold tryDowncastHost
      rw [hv]
      cases v with
      | obj a =>
        cases ho : lookup h.space.objs a with
        | none => simp [ho]
        | some o =>
          cases hn : lookup h.natives o.native with
          | none => simp [ho, hn]
          | some rt =>
            by_cases hrt : rt = t
            · subst hrt; simp [ho, hn]
            · simp [ho, hn, hrt]
      | num bits => simp
      | vnull => simp
      | vbool b => simp
  · exact ⟨⟨by decide, by decide, by decide⟩, ⟨by decide, by decide, by decide⟩,
      ⟨by decide, by decide, by decide⟩, ⟨by decide, by decide, by decide⟩⟩

/-- Witness for C6's quantified part at the concrete heap: the bool
source at slot 0 and the String source at slot 3. -/
theorem try_downcast_spec_witness :
    (downcastHeap.getLocal 0 0 = some (TVal.vbool true))
    ∧ ((tryDowncastBool downcastHeap 0 0).isSome ↔ ∃ b, TVal.vbool true = TVal.vbool b)
    ∧ ((tryDowncastHost downcastHeap 0 3 .stringTy).isSome ↔
        ∃ a o, TVal.obj 32 = TVal.obj a ∧ lookup downcastHeap.space.objs a = some o
          ∧ o.object_type = ObjectType.host
          ∧ lookup downcastHeap.natives o.native = some RustTy.stringTy) :=
  ⟨by decide,
    (try_downcast_spec.1 downcastHeap 0 0 (TVal.vbool true) (by decide)).2.1,
    (try_downcast_spec.1 downcastHeap 0 3 (TVal.obj 32) (by decide)).2.2 RustTy.stringTy⟩

/-! ## The copying collector (src/object.rs ObjectVisitor, src/heap.rs collect)

The collector state carries the visitor's destination Space and work
queue (object.rs:13-16) together with the forwarding map, which stands
for the `new_header_ptr` slots written into the source objects' headers
during the collection (they are `None` outside one).  A result of `none`
models a panic or undefined behaviour — there is no error return
anywhere in the visitor. -/

structure GcState where
  dest : SpaceM
  queue : List Nat
  fwd : List (Nat × Nat)
deriving DecidableEq, Repr

/-- ObjectVisitor::visit (object.rs:26-43): if the header is already
forwarded return the forwarded object pointer; otherwise reserve
`alloc_size` bytes in the destination — `.unwrap()`, so an allocation
failure is a panic (`none`), not an error return — byte-copy header and
payload, record the forwarding pointer, enqueue the new object, return
it.  A `none` from the source lookup is the undefined behaviour of
visiting a tagged pointer that refers to no object. -/
def visitObj (src : SpaceM) (g : GcState) (addr : Nat) : Option (GcState × Nat) :=
  match lookup g.fwd addr with
  | some newAddr => some (g, newAddr)
  | none =>
    match lookup src.objs addr with
    | none => none
    | some o =>
      match g.dest.alloc (allocSize o) with
      | .error _ => none
      | .ok (newHeaderAddr, dest') =>
        let newAddr := newHeaderAddr + HEADER_SIZE
        some
          ({ dest := { dest' with objs := dest'.objs ++ [(newAddr, o)] },
             queue := g.queue ++ [newAddr],
             fwd := g.fwd ++ [(addr, newAddr)] }, newAddr)

/-- HeapHandle::trace (object.rs:94-98): if the tagged value holds an
object pointer, rewrite it to the (possibly fresh) forwarded pointer;
other kinds are left alone. -/
def traceVal (src : SpaceM) (g : GcState) (v : TVal) : Option (GcState × TVal) :=
  match v with
  | .obj addr => (visitObj src g addr).map fun p => (p.1, TVal.obj p.2)
  | v => some (g, v)

/-- ObjectVisitor::trace_handles (object.rs:45-50): trace a vector of
HeapHandles in index order, rewriting each in place. -/
def traceVals (src : SpaceM) : GcState → List TVal → Option (GcState × List TVal)
  | g, [] => some (g, [])
  | g, v :: rest =>
    match traceVal src g v with
    | none => none
    | some (g', v') =>
      match traceVals src g' rest with
      | none => none
      | some (g'', rest') => some (g'', v' :: rest')

/-- ObjectVisitor::trace_maybe_handles (object.rs:52-58): as
`trace_handles`, skipping empty slots. -/
def traceMaybeVals (src : SpaceM) :
    GcState → List (Option TVal) → Option (GcState × List (Option TVal))
  | g, [] => some (g, [])
  | g, none :: rest =>
    match traceMaybeVals src g rest with
    | none => none
    | some (g', rest') => some (g', none :: rest')
  | g, some v :: rest =>
    match traceVal src g v with
    | none => none
    | some (g', v') =>
      match traceMaybeVals src g' rest with
      | none => none
      | some (g'', rest') => some (g'', some v' :: rest')

/-- HeapInner::trace, scope loop (heap.rs:31-34): trace every scope's
frame in stack order. -/
def traceScopes (src : SpaceM) :
    GcState → List (List TVal) → Option (GcState × List (List TVal))
  | g, [] => some (g, [])
  | g, frame :: rest =>
    match traceVals src g frame with
    | none => none
    | some (g', frame') =>
      match traceScopes src g' rest with
      | none => none
      | some (g'', rest') => some (g'', frame' :: rest')

/-- HeapInner::trace, queue drain (heap.rs:36-40): pop the front object
pointer, load its `TraceableObject`, and run the native's `trace`, which
visits every HeapHandle field the native owns (rewriting the fields of
the copy just made).  `fuel` bounds the iteration count; the callers
supply enough for the drain to finish (each iteration pops one element
and every enqueued element is a fresh copy of a distinct source
object). -/
def drain (src : SpaceM) : Nat → GcState → Option GcState
  | 0, g => if g.queue.isEmpty then some g else none
  | fuel + 1, g =>
    match g.queue with
    | [] => some g
    | d :: qrest =>
      match lookup g.dest.objs d with
      | none => none
      | some o =>
        match traceVals src { g with queue := qrest } o.fields with
        | none => none
        | some (g', fields') =>
          drain src fuel
            { g' with dest := { g'.dest with
                objs := setEntry g'.dest.objs d { o with fields := fields' } } }

/-- HeapInner::update_weak (heap.rs:43-60): walk the weaks vector; an
object entry whose source header was forwarded is rewritten to the new
object pointer and kept, an unforwarded object's boxed native joins the
doomed list, and a non-object entry is silently dropped.  Returns the
surviving weaks and the doomed native ids. -/
def updateWeak (src : SpaceM) (fwd : List (Nat × Nat)) :
    List TVal → Option (List TVal × List Nat)
  | [] => some ([], [])
  | v :: rest =>
    match v with
    | .obj a =>
      match lookup fwd a with
      | some n =>
        match updateWeak src fwd rest with
        | none => none
        | some (surv, doomed) => some (TVal.obj n :: surv, doomed)
      | none =>
        match lookup src.objs a with
        | none => none
        | some o =>
          match updateWeak src fwd rest with
          | none => none
          | some (surv, doomed) => some (surv, o.native :: doomed)
    | _ =>
      match updateWeak src fwd rest with
      | none => none
      | some p => some p

/-- Heap::collect body (heap.rs:86-97) over a given destination Space:
trace the globals then every scope frame, drain the visitor's queue,
update the weaks, swap the Spaces, and finally drop the doomed boxed
natives (removing them from the natives table). -/
def collectWith (h : HeapM) (destSpace : SpaceM) : Option HeapM :=
  match traceMaybeVals h.space ⟨destSpace, [], []⟩ h.globals with
  | none => none
  | some (g1, globals') =>
    match traceScopes h.space g1 h.scopes with
    | none => none
    | some (g2, scopes') =>
      match drain h.space (h.space.objs.length + g2.queue.length) g2 with
      | none => none
      | some g3 =>
        match updateWeak h.space g3.fwd h.weaks with
        | none => none
        | some (weaks', doomed) =>
          some
            { space := g3.dest, scopes := scopes', globals := globals',
              weaks := weaks',
              natives := doomed.foldl removeEntry h.natives,
              nextNative := h.nextNative }

/-- Heap::collect (heap.rs:86-97): the destination Space has the same
capacity as the active one (`Space::new(self.inner.borrow().space.size)`;
its OS-level failure is not modelled). -/
def HeapM.collect (h : HeapM) : Option HeapM :=
  collectWith h (SpaceM.new h.space.size)

/-! ### Claim C1: behaviour when the destination is too small -/

/-- Concrete well-formed heap with one live rooted 48-byte object. -/
def oneObjHeap : HeapM :=
  { space := ⟨100, 48, [(32, ⟨16, .host, 0, []⟩)]⟩,
    scopes := [[TVal.obj 32]], globals := [], weaks := [TVal.obj 32],
    natives := [(0, .stringTy)], nextNative := 1 }

/-- Counterexample to claim C1 as stated.  Run the body of `collect` with
a destination Space of capacity 0, too small for the surviving object:
the destination allocation fails inside `ObjectVisitor::visit`, whose
`.unwrap()` panics (object.rs:31) — modelled by `none` — so the
collection neither surfaces a `NoSpace` error nor returns at all with the
source heap retained.  The `Space::alloc` the visitor unwraps did fail
with `NoSpace`, as the last conjunct shows; the claimed abandon-and-
return-NoSpace behaviour is what does not happen. -/
theorem collect_dest_too_small_panics :
    collectWith oneObjHeap (SpaceM.new 0) = none
    ∧ visitObj oneObjHeap.space ⟨SpaceM.new 0, [], []⟩ 32 = none
    ∧ (SpaceM.new 0).alloc (allocSize ⟨16, .host, 0, []⟩) = .error .noSpace := by
  refine ⟨by decide, by decide, by rfl⟩

/-! ### Claim C9: half-capacity Space and the used-bytes bound -/

/-- External heap operations a host can perform (section 6 of the spec). -/
inductive Op
  | createOp (si : Nat) (rty : RustTy) (fields : List TVal)
  | collectOp
  | scopePushOp
  | scopeDropOp (i : Nat)
  | globalAddOp (si idx : Nat)
  | globalDropOp (i : Nat)
deriving DecidableEq, Repr

/-- One heap API call; `none` models a panic (inside the visitor or on an
out-of-range scope index). -/
def stepOp (h : HeapM) : Op → Option HeapM
  | .createOp si rty fields =>
    if si < h.scopes.length then some (h.create si rty fields).2 else none
  | .collectOp => h.collect
  | .scopePushOp => some (h.scopePush).1
  | .scopeDropOp i => some (h.scopeDrop i)
  | .globalAddOp si idx => (h.toGlobal si idx).map Prod.fst
  | .globalDropOp i => some (h.rootDrop i)

def runOps : HeapM → List Op → Option HeapM
  | h, [] => some h
  | h, op :: rest =>
    match stepOp h op with
    | none => none
    | some h' => runOps h' rest

/-- Capacity/occupancy invariant threaded through every collector phase:
the destination Space keeps capacity `c` and its bump pointer never
passes it (every destination write goes through `SpaceM.alloc`). -/
def destOkC (c : Nat) (g : GcState) : Prop := g.dest.size = c ∧ g.dest.next ≤ c

theorem visitObj_destOkC {src : SpaceM} {g : GcState} {addr : Nat} {g' : GcState}
    {n c : Nat} (hg : destOkC c g) (h : visitObj src g addr = some (g', n)) :
    destOkC c g' := by
  unfold visitObj at h
  cases hf : lookup g.fwd addr with
  | some m =>
    simp only [hf] at h
    cases h
    exact hg
  | none =>
    simp only [hf] at h
    cases ho : lookup src.objs addr with
    | none => simp only [ho] at h; cases h
    | some o =>
      simp only [ho] at h
      cases hal : g.dest.alloc (allocSize o) with
      | error e => simp only [hal] at h; cases h
      | ok p =>
        obtain ⟨q, dest'⟩ := p
        have hc := SpaceM.alloc_cases _ _ _ _ hal
        simp only [hal] at h
        cases h
        refine ⟨?_, ?_⟩
        · simp [hc.2.1, hg.1]
        · simp [hc.2.1]
          rw [hg.1] at hc
          exact hc.2.2

theorem traceVal_destOkC {src : SpaceM} {g : GcState} {v : TVal} {g' : GcState}
    {v' : TVal} {c : Nat} (hg : destOkC c g) (h : traceVal src g v = some (g', v')) :
    destOkC c g' := by
  unfold traceVal at h
  cases v with
  | obj addr =>
    cases hv : visitObj src g addr with
    | none => simp [hv] at h
    | some p =>
      obtain ⟨g₁, n⟩ := p
      simp only [hv, Option.map_some] at h
      cases h
      exact visitObj_destOkC hg hv
  | num bits => cases h; exact hg
  | vnull => cases h; exact hg
  | vbool b => cases h; exact hg

theorem traceVals_destOkC {src : SpaceM} {c : Nat} :
    ∀ {vs : List TVal} {g g' : GcState} {vs' : List TVal},
      destOkC c g → traceVals src g vs = some (g', vs') → destOkC c g'
  | [], g, g', vs', hg, h => by
    cases h
    exact hg
  | v :: rest, g, g', vs', hg, h => by
    unfold traceVals at h
    cases hv : traceVal src g v with
    | none => simp only [hv] at h; cases h
    | some p =>
      obtain ⟨g₁, v₁⟩ := p
      simp only [hv] at h
      cases hr : traceVals src g₁ rest with
      | none => simp only [hr] at h; cases h
      | some q =>
        obtain ⟨g₂, rest'⟩ := q
        simp only [hr] at h
        cases h
        exact traceVals_destOkC (traceVal_destOkC hg hv) hr

theorem traceMaybeVals_destOkC {src : SpaceM} {c : Nat} :
    ∀ {vs : List (Option TVal)} {g g' : GcState} {vs' : List (Option TVal)},
      destOkC c g → traceMaybeVals src g vs = some (g', vs') → destOkC c g'
  | [], g, g', vs', hg, h => by
    cases h
    exact hg
  | none :: rest, g, g', vs', hg, h => by
    unfold traceMaybeVals at h
    cases hr : traceMaybeVals src g rest with
    | none => simp only [hr] at h; cases h
    | some q =>
      obtain ⟨g₂, rest'⟩ := q
      simp only [hr] at h
      cases h
      exact traceMaybeVals_destOkC hg hr
  | some v :: rest, g, g', vs', hg, h => by
    unfold traceMaybeVals at h
    cases hv : traceVal src g v with
    | none => simp only [hv] at h; cases h
    | some p =>
      obtain ⟨g₁, v₁⟩ := p
      simp only [hv] at h
      cases hr : traceMaybeVals src g₁ rest with
      | none => simp only [hr] at h; cases h
      | some q =>
        obtain ⟨g₂, rest'⟩ := q
        simp only [hr] at h
        cases h
        exact traceMaybeVals_destOkC (traceVal_destOkC hg hv) hr

theorem traceScopes_destOkC {src : SpaceM} {c : Nat} :
    ∀ {vs : List (List TVal)} {g g' : GcState} {vs' : List (List TVal)},
      destOkC c g → traceScopes src g vs = some (g', vs') → destOkC c g'
  | [], g, g', vs', hg, h => by
    cases h
    exact hg
  | frame :: rest, g, g', vs', hg, h => by
    unfold traceScopes at h
    cases hv : traceVals src g frame with
    | none => simp only [hv] at h; cases h
    | some p =>
      obtain ⟨g₁, f₁⟩ := p
      simp only [hv] at h
      cases hr : traceScopes src g₁ rest with
      | none => simp only [hr] at h; cases h
      | some q =>
        obtain ⟨g₂, rest'⟩ := q
        simp only [hr] at h
        cases h
        exact traceScopes_destOkC (traceVals_destOkC hg hv) hr

theorem drain_destOkC {src : SpaceM} {c : Nat} :
    ∀ {fuel : Nat} {g g' : GcState},
      destOkC c g → drain src fuel g = some g' → destOkC c g'
  | 0, g, g', hg, h => by
    unfold drain at h
    cases hq : g.queue with
    | nil =>
      simp [hq] at h
      subst h
      exact hg
    | cons d q => simp [hq] at h
  | fuel + 1, g, g', hg, h => by
    unfold drain at h
    cases hq : g.queue with
    | nil => simp only [hq] at h; cases h; exact hg
    | cons d qrest =>
      simp only [hq] at h
      cases ho : lookup g.dest.objs d with
      | none => simp only [ho] at h; cases h
      | some o =>
        simp only [ho] at h
        cases ht : traceVals src { g with queue := qrest } o.fields with
        | none => simp only [ht] at h; cases h
        | some p =>
          obtain ⟨g₁, fields'⟩ := p
          simp only [ht] at h
          have hgq : destOkC c { g with queue := qrest } := ⟨hg.1, hg.2⟩
          have h₁ : destOkC c g₁ := traceVals_destOkC hgq ht
          have h₂ : destOkC c
              { g₁ with dest := { g₁.dest with
                  objs := setEntry g₁.dest.objs d { o with fields := fields' } } } :=
            ⟨h₁.1, h₁.2⟩
          exact drain_destOkC h₂ h

theorem collectWith_space_bound {h : HeapM} {dest : SpaceM} {h' : HeapM}
    (hd : dest.next ≤ dest.size) (hc : collectWith h dest = some h') :
    h'.space.size = dest.size ∧ h'.space.next ≤ dest.size := by
  unfold collectWith at hc
  cases h1 : traceMaybeVals h.space ⟨dest, [], []⟩ h.globals with
  | none => simp only [h1] at hc; cases hc
  | some p1 =>
    obtain ⟨g1, globals'⟩ := p1
    simp only [h1] at hc
    cases h2 : traceScopes h.space g1 h.scopes with
    | none => simp only [h2] at hc; cases hc
    | some p2 =>
      obtain ⟨g2, scopes'⟩ := p2
      simp only [h2] at hc
      cases h3 : drain h.space (h.space.objs.length + g2.queue.length) g2 with
      | none => simp only [h3] at hc; cases hc
      | some g3 =>
        simp only [h3] at hc
        cases h4 : updateWeak h.space g3.fwd h.weaks with
        | none => simp only [h4] at hc; cases hc
        | some p4 =>
          obtain ⟨weaks', doomed⟩ := p4
          simp only [h4] at hc
          have hg1 : destOkC dest.size g1 :=
            traceMaybeVals_destOkC ⟨rfl, hd⟩ h1
          have hg2 : destOkC dest.size g2 := traceScopes_destOkC hg1 h2
          have hg3 : destOkC dest.size g3 := drain_destOkC hg2 h3
          cases hc
          exact ⟨hg3.1, hg3.1 ▸ hg3.2⟩

theorem emplace_space_bound (h : HeapM) (rty : RustTy) (fields : List TVal)
    (hb : h.space.next ≤ h.space.size) :
    (h.emplace rty fields).2.space.size = h.space.size
    ∧ (h.emplace rty fields).2.space.next ≤ h.space.size := by
  unfold HeapM.emplace
  cases hal : h.space.alloc (HEADER_SIZE + TRACEABLE_OBJECT_SIZE) with
  | error e => exact ⟨rfl, hb⟩
  | ok p =>
    obtain ⟨q, sp⟩ := p
    have hc := SpaceM.alloc_cases _ _ _ _ hal
    simp [hc.2.1]
    exact hc.2.2

/-- Space capacity and occupancy invariant for a heap. -/
def heapCap (c : Nat) (h : HeapM) : Prop :=
  h.space.size = c ∧ h.space.next ≤ c

theorem stepOp_heapCap {c : Nat} {h h' : HeapM} {op : Op}
    (hc : heapCap c h) (hs : stepOp h op = some h') : heapCap c h' := by
  cases op with
  | createOp si rty fields =>
    unfold stepOp at hs
    by_cases hsi : si < h.scopes.length
    · simp [hsi] at hs
      have he := emplace_space_bound h rty fields (hc.1 ▸ hc.2)
      unfold HeapM.create at hs
      cases hemp : h.emplace rty fields with
      | mk r h₁ =>
        rw [hemp] at hs he
        cases r with
        | error e => simp at hs; rw [← hs]; exact ⟨hc.1 ▸ he.1, hc.1 ▸ he.2⟩
        | ok v =>
          simp [HeapM.scopeAdd] at hs
          rw [← hs]
          exact ⟨hc.1 ▸ he.1, hc.1 ▸ he.2⟩
    · simp [hsi] at hs
  | collectOp =>
    unfold stepOp HeapM.collect at hs
    have := collectWith_space_bound (Nat.zero_le _) hs
    simp [SpaceM.new] at this
    exact ⟨hc.1 ▸ this.1, hc.1 ▸ this.2⟩
  | scopePushOp =>
    unfold stepOp HeapM.scopePush at hs
    simp at hs
    rw [← hs]
    exact hc
  | scopeDropOp i =>
    unfold stepOp HeapM.scopeDrop at hs
    simp at hs
    rw [← hs]
    exact hc
  | globalAddOp si idx =>
    simp only [stepOp, HeapM.toGlobal] at hs
    cases hl : h.getLocal si idx with
    | none => simp [hl] at hs
    | some v =>
      simp [hl] at hs
      rw [← hs]
      exact hc
  | globalDropOp i =>
    unfold stepOp HeapM.rootDrop at hs
    simp at hs
    rw [← hs]
    exact hc

theorem runOps_heapCap {c : Nat} :
    ∀ {ops : List Op} {h h' : HeapM},
      heapCap c h → runOps h ops = some h' → heapCap c h'
  | [], h, h', hc, hr => by
    simp [runOps] at hr
    rw [← hr]; exact hc
  | op :: rest, h, h', hc, hr => by
    unfold runOps at hr
    cases hs : stepOp h op with
    | none => rw [hs] at hr; cases hr
    | some h₁ =>
      rw [hs] at hr
      exact runOps_heapCap (stepOp_heapCap hc hs) hr

/-- Claim C9. `Heap::new(size_in_bytes)` gives its single Space capacity
`size_in_bytes / 2` (floor), not `size_in_bytes`; along every run of heap
operations from such a heap, `used()` never exceeds `size_in_bytes / 2`;
and a single allocation larger than `size_in_bytes / 2` bytes of header
plus payload fails with `NoSpace` even on the freshly created heap. -/
theorem heap_half_capacity (s : Nat) (ops : List Op) (h' : HeapM) (n : Nat)
    (hrun : runOps (heapNew s) ops = some h') (hn : n > s / 2) :
    (heapNew s).space.size = s / 2
    ∧ h'.used ≤ s / 2
    ∧ (heapNew s).space.alloc n = .error .noSpace := by
  refine ⟨rfl, ?_, ?_⟩
  · exact (runOps_heapCap ⟨rfl, Nat.zero_le _⟩ hrun).2
  · exact SpaceM.allocM_err _ _ (by simpa [heapNew, SpaceM.new] using hn)

/-- Witness for C9: a 100-byte heap (50-byte Space), one scope, one
object, one collection; a 51-byte request on the fresh heap fails. -/
theorem heap_half_capacity_witness :
    ∃ h', runOps (heapNew 100) [.scopePushOp, .createOp 0 .stringTy [], .collectOp]
        = some h'
      ∧ ((heapNew 100).space.size = 50 ∧ h'.used ≤ 50
        ∧ (heapNew 100).space.alloc 51 = .error .noSpace) := by
  cases hr : runOps (heapNew 100) [.scopePushOp, .createOp 0 .stringTy [], .collectOp] with
  | none => exact absurd hr (by decide)
  | some h' =>
    exact ⟨h', rfl, heap_half_capacity 100 _ h' 51 hr (by decide)⟩

/-! ## Well-formedness of a heap

Invariants from section 3 of the spec that hold at every externally
observable instant: every rooted tagged pointer and every object field
refers to an object of the current Space, the objects lie contiguously
(every allocation is a bump), and the weaks refer into the Space. -/

/-- A tagged value refers into the Space (trivially for non-objects). -/
def TVal.validB (sp : SpaceM) : TVal → Bool
  | .obj a => (lookup sp.objs a).isSome
  | _ => true

def validOptB (sp : SpaceM) : Option TVal → Bool
  | none => true
  | some v => TVal.validB sp v

/-- The Space's objects sit contiguously from its base and fill exactly
`next` bytes, within a 64-bit capacity. -/
def SpaceM.wf (sp : SpaceM) : Prop :=
  layoutOk 0 sp.objs ∧ layoutEnd 0 sp.objs = sp.next
    ∧ sp.next ≤ sp.size ∧ sp.size < USIZE

instance (sp : SpaceM) : Decidable sp.wf := by unfold SpaceM.wf; infer_instance

def HeapM.wf (h : HeapM) : Prop :=
  h.space.wf
  ∧ (∀ frame ∈ h.scopes, ∀ v ∈ frame, TVal.validB h.space v = true)
  ∧ (∀ og ∈ h.globals, validOptB h.space og = true)
  ∧ (∀ v ∈ h.weaks, TVal.validB h.space v = true)
  ∧ (∀ p ∈ h.space.objs, ∀ v ∈ p.2.fields, TVal.validB h.space v = true)

instance (h : HeapM) : Decidable h.wf := by unfold HeapM.wf; infer_instance

/-! ## Collector invariants -/

/-- Allocation footprint of the source object at key `k` (0 for a key
with no object). -/
def srcAllocAt (src : SpaceM) (k : Nat) : Nat :=
  ((lookup src.objs k).map allocSize).getD 0

/-- Relation between a tagged value and its post-trace rewrite: object
pointers follow the forwarding map, other kinds are untouched. -/
def rewrittenVal (fwd : List (Nat × Nat)) : TVal → TVal → Prop
  | .obj a, w => ∃ n, lookup fwd a = some n ∧ w = TVal.obj n
  | v, w => w = v

/-- Why a destination object was copied: reached from the root value at
index `i` of the processed-roots list, or from a field of the earlier
destination object at position `j`. -/
inductive Cause
  | root (i : Nat)
  | parent (j : Nat)
deriving DecidableEq, Repr

def destKey (g : GcState) (k : Nat) : Option Nat :=
  (g.dest.objs.get? k).map Prod.fst

def destHObj (g : GcState) (k : Nat) : Option HObj :=
  (g.dest.objs.get? k).map Prod.snd

def causeValid (R : List TVal) (pend : Option Nat) (g : GcState) (k : Nat) :
    Cause → Prop
  | .root i => ∃ n, destKey g k = some n ∧ R.get? i = some (TVal.obj n)
  | .parent j => j < k ∧ ∃ n pk po, destKey g k = some n ∧ destKey g j = some pk
      ∧ destHObj g j = some po ∧ pk ∉ g.queue ∧ pend ≠ some pk
      ∧ TVal.obj n ∈ po.fields

/-- Every copied object has a recorded cause: a processed root that holds
its address, or an earlier, already-traced destination object holding it
in a field. -/
def causeOk (R : List TVal) (pend : Option Nat) (g : GcState)
    (causes : List Cause) : Prop :=
  causes.length = g.dest.objs.length
  ∧ ∀ k c, causes.get? k = some c → causeValid R pend g k c

/-- Per-pair relation between a forwarding entry and the copy it made:
same payload address, a source object with the same size and native. -/
def copyRel (src : SpaceM) (p : Nat × Nat) (q : Nat × HObj) : Prop :=
  p.2 = q.1 ∧ ∃ o, lookup src.objs p.1 = some o
    ∧ q.2.object_size = o.object_size ∧ q.2.native = o.native

/-- Visitor invariant, relative to the source Space.  `pend` is the
destination object currently being traced by the drain loop (its fields
are still the source copy). -/
structure Inv (src : SpaceM) (pend : Option Nat) (g : GcState) : Prop where
  dWf : g.dest.wf
  srcFit : src.next ≤ g.dest.size
  fNodup : (g.fwd.map Prod.fst).Nodup
  pairs : List.Forall₂ (copyRel src) g.fwd g.dest.objs
  fieldsUntraced : ∀ p ∈ g.fwd, (p.2 ∈ g.queue ∨ pend = some p.2) →
      ∃ o o', lookup src.objs p.1 = some o ∧ lookup g.dest.objs p.2 = some o'
        ∧ o'.fields = o.fields
  fieldsTraced : ∀ p ∈ g.fwd, p.2 ∉ g.queue → pend ≠ some p.2 →
      ∃ o o', lookup src.objs p.1 = some o ∧ lookup g.dest.objs p.2 = some o'
        ∧ List.Forall₂ (rewrittenVal g.fwd) o.fields o'.fields
  qSub : ∀ n ∈ g.queue, n ∈ g.dest.objs.map Prod.fst
  qNodup : g.queue.Nodup
  pendQ : ∀ d, pend = some d → d ∉ g.queue ∧ d ∈ g.dest.objs.map Prod.fst

/-! ### Small consequences and monotonicity -/

theorem lookup_grow {α : Type} {l l' : List (Nat × α)} {k : Nat} {x : α}
    (hpre : l.IsPrefix l') (hnd : (l'.map Prod.fst).Nodup)
    (h : lookup l k = some x) : lookup l' k = some x :=
  mem_lookup_of_nodup hnd (hpre.subset (lookup_mem h))

theorem rewrittenVal_mono {fwd fwd' : List (Nat × Nat)} {v w : TVal}
    (hpre : fwd.IsPrefix fwd') (hnd : (fwd'.map Prod.fst).Nodup)
    (h : rewrittenVal fwd v w) : rewrittenVal fwd' v w := by
  cases v with
  | obj a =>
    obtain ⟨n, hn, hw⟩ := h
    exact ⟨n, lookup_grow hpre hnd hn, hw⟩
  | num bits => exact h
  | vnull => exact h
  | vbool b => exact h

theorem forall2_keys {src : SpaceM} :
    ∀ {F : List (Nat × Nat)} {D : List (Nat × HObj)},
      List.Forall₂ (copyRel src) F D → D.map Prod.fst = F.map Prod.snd
  | _, _, .nil => rfl
  | _, _, .cons hrel htail => by
    simp only [List.map_cons]
    rw [forall2_keys htail, hrel.1]

theorem pairs_keys {src : SpaceM} {pend : Option Nat} {g : GcState}
    (inv : Inv src pend g) :
    g.dest.objs.map Prod.fst = g.fwd.map Prod.snd :=
  forall2_keys inv.pairs

theorem dest_keys_nodup {src : SpaceM} {pend : Option Nat} {g : GcState}
    (inv : Inv src pend g) : (g.dest.objs.map Prod.fst).Nodup :=
  layoutOk_keys_nodup 0 g.dest.objs inv.dWf.1

theorem forall2_alloc_sum {src : SpaceM} :
    ∀ {F : List (Nat × Nat)} {D : List (Nat × HObj)},
      List.Forall₂ (copyRel src) F D →
      (D.map fun q => allocSize q.2).sum = ((F.map Prod.fst).map (srcAllocAt src)).sum
  | _, _, .nil => rfl
  | _, _, .cons hrel htail => by
    simp only [List.map_cons, List.sum_cons]
    rw [forall2_alloc_sum htail]
    obtain ⟨-, o, ho, hsz, -⟩ := hrel
    simp [srcAllocAt, ho, allocSize, hsz]

/-- The bytes consumed by the destination equal the source footprints of
the copied keys. -/
theorem dest_next_eq_copied_sum {src : SpaceM} {pend : Option Nat} {g : GcState}
    (inv : Inv src pend g) :
    g.dest.next = ((g.fwd.map Prod.fst).map (srcAllocAt src)).sum := by
  have hend := inv.dWf.2.1
  rw [layoutEnd_eq_sum] at hend
  rw [← hend, ← forall2_alloc_sum inv.pairs]
  simp

theorem lookupAlloc_keys_sum :
    ∀ (l : List (Nat × HObj)), (l.map Prod.fst).Nodup →
      ((l.map Prod.fst).map fun k => ((lookup l k).map allocSize).getD 0).sum
        = (l.map fun p => allocSize p.2).sum
  | [], _ => rfl
  | (a, o) :: rest, hnd => by
    rw [List.map_cons, List.nodup_cons] at hnd
    simp only [List.map_cons, List.sum_cons]
    have hhead : ((lookup ((a, o) :: rest) a).map allocSize).getD 0 = allocSize o := by
      simp [lookup]
    rw [hhead]
    have hcongr : (rest.map Prod.fst).map
          (fun k => ((lookup ((a, o) :: rest) k).map allocSize).getD 0)
        = (rest.map Prod.fst).map (fun k => ((lookup rest k).map allocSize).getD 0) := by
      apply List.map_congr_left
      intro k hk
      have hak : a ≠ k := by
        intro he; subst he; exact hnd.1 hk
      simp [lookup, hak]
    rw [hcongr, lookupAlloc_keys_sum rest hnd.2]

/-- Sum of source footprints over a nodup list of valid keys is at most
the source occupancy. -/
theorem copied_sum_le_src (src : SpaceM) (hsrc : src.wf) (K : List Nat)
    (hnd : K.Nodup) (hval : ∀ k ∈ K, (lookup src.objs k).isSome) :
    (K.map (srcAllocAt src)).sum ≤ src.next := by
  have hsubset : K ⊆ src.objs.map Prod.fst := by
    intro k hk
    exact (lookup_isSome_iff_mem_keys _ _).mp (hval k hk)
  obtain ⟨K', hperm, hsub⟩ := hnd.subperm hsubset
  have h1 : (K.map (srcAllocAt src)).sum = (K'.map (srcAllocAt src)).sum :=
    ((hperm.map (srcAllocAt src)).sum_eq).symm
  have h2 : (K'.map (srcAllocAt src)).sum
      ≤ ((src.objs.map Prod.fst).map (srcAllocAt src)).sum :=
    List.Sublist.sum_le_sum (hsub.map (srcAllocAt src)) (fun a _ => Nat.zero_le a)
  have hnd' : (src.objs.map Prod.fst).Nodup := layoutOk_keys_nodup 0 _ hsrc.1
  have h3 : ((src.objs.map Prod.fst).map (srcAllocAt src)).sum
      = (src.objs.map fun p => allocSize p.2).sum :=
    lookupAlloc_keys_sum src.objs hnd'
  have h4 : (src.objs.map fun p => allocSize p.2).sum = src.next := by
    have := hsrc.2.1
    rw [layoutEnd_eq_sum] at this
    omega
  omega

/-! ### List helpers for the visitor proofs -/

theorem lookup_eq_none_iff {α : Type} (l : List (Nat × α)) (k : Nat) :
    lookup l k = none ↔ k ∉ l.map Prod.fst := by
  rw [← lookup_isSome_iff_mem_keys]
  cases lookup l k <;> simp

theorem get?_append_left_of_some {α : Type} {l l' : List α} {i : Nat} {x : α}
    (h : l.get? i = some x) : (l ++ l').get? i = some x := by
  have hi : i < l.length := by
    by_contra hno
    rw [List.get?_eq_none.mpr (Nat.not_lt.mp hno)] at h
    cases h
  rw [List.get?_append hi]
  exact h

theorem forall2_mem_left {α β : Type} {R : α → β → Prop} :
    ∀ {l₁ : List α} {l₂ : List β}, List.Forall₂ R l₁ l₂ → ∀ a ∈ l₁, ∃ b, R a b
  | _, _, .nil => by intro a ha; simp at ha
  | _, _, .cons h₁ h₂ => by
    intro a ha
    rcases List.mem_cons.mp ha with he | hm
    · subst he; exact ⟨_, h₁⟩
    · exact forall2_mem_left h₂ a hm

theorem forall2_append_single {α β : Type} {R : α → β → Prop}
    {l₁ : List α} {l₂ : List β} {a : α} {b : β}
    (h : List.Forall₂ R l₁ l₂) (hab : R a b) :
    List.Forall₂ R (l₁ ++ [a]) (l₂ ++ [b]) := by
  induction h with
  | nil => exact .cons hab .nil
  | cons h₁ _ ih => exact .cons h₁ ih

theorem causeOk_R_append {R ext : List TVal} {pend : Option Nat} {g : GcState}
    {causes : List Cause} (h : causeOk R pend g causes) :
    causeOk (R ++ ext) pend g causes := by
  refine ⟨h.1, fun k c hc => ?_⟩
  have hv := h.2 k c hc
  cases c with
  | root i =>
    obtain ⟨n, hk, hR⟩ := hv
    exact ⟨n, hk, get?_append_left_of_some hR⟩
  | parent j => exact hv

/-- Monotone progress made by the visitor inside the root phase and
inside the trace of one native: forwarding map, destination objects and
queue only grow at the end, the destination capacity is fixed, and queue
growth equals forwarding growth. -/
def GcStep (g g' : GcState) : Prop :=
  g.fwd.IsPrefix g'.fwd ∧ g.dest.objs.IsPrefix g'.dest.objs
    ∧ g.queue.IsPrefix g'.queue ∧ g.dest.size = g'.dest.size
    ∧ g'.queue.length + g.fwd.length = g.queue.length + g'.fwd.length
    ∧ ∀ x ∈ g'.queue, x ∉ g.queue → x ∉ g.dest.objs.map Prod.fst

theorem GcStep_refl (g : GcState) : GcStep g g :=
  ⟨List.prefix_refl _, List.prefix_refl _, List.prefix_refl _, rfl, rfl,
    fun x hx hnx => absurd hx hnx⟩

theorem GcStep_trans {g g' g'' : GcState} (h1 : GcStep g g') (h2 : GcStep g' g'') :
    GcStep g g'' := by
  refine ⟨h1.1.trans h2.1, h1.2.1.trans h2.2.1, h1.2.2.1.trans h2.2.2.1,
    h1.2.2.2.1.trans h2.2.2.2.1, ?_, ?_⟩
  · have := h1.2.2.2.2.1
    have := h2.2.2.2.2.1
    omega
  · intro x hx hnx
    by_cases hq' : x ∈ g'.queue
    · exact h1.2.2.2.2.2 x hq' hnx
    · intro hkeys
      have hkeys' : x ∈ g'.dest.objs.map Prod.fst :=
        (h1.2.1.map Prod.fst).subset hkeys
      exact h2.2.2.2.2.2 x hx hq' hkeys'

/-- Key step lemma for `ObjectVisitor::visit`: under the invariant, on a
valid source address the visit succeeds (the destination always has room
for the copy, because copied footprints are a subset of the source's),
preserves the invariant, extends the cause record with a root reference
to the just-appended root value, and forwards the address. -/
theorem visitObj_ok (src : SpaceM) (pend : Option Nat) (R : List TVal)
    (causes : List Cause) (g : GcState) (addr : Nat)
    (hsrc : src.wf) (inv : Inv src pend g) (hca : causeOk R pend g causes)
    (hv : (lookup src.objs addr).isSome) :
    ∃ g' n,
      visitObj src g addr = some (g', n)
      ∧ Inv src pend g'
      ∧ (∃ ext, causeOk (R ++ [TVal.obj n]) pend g' (causes ++ ext))
      ∧ GcStep g g'
      ∧ lookup g'.fwd addr = some n := by
  cases hf : lookup g.fwd addr with
  | some n =>
    refine ⟨g, n, ?_, inv, ⟨[], by simpa using causeOk_R_append hca⟩,
      GcStep_refl g, hf⟩
    unfold visitObj
    rw [hf]
  | none =>
    cases ho : lookup src.objs addr with
    | none => rw [ho] at hv; cases hv
    | some o =>
      -- capacity: the copied keys plus this one still fit in the source
      have haddrNot : addr ∉ g.fwd.map Prod.fst :=
        (lookup_eq_none_iff _ _).mp hf
      have hKval : ∀ k ∈ g.fwd.map Prod.fst ++ [addr], (lookup src.objs k).isSome := by
        intro k hk
        rcases List.mem_append.mp hk with hk | hk
        · obtain ⟨p, hp, hpk⟩ := List.mem_map.mp hk
          obtain ⟨q, hrel⟩ := forall2_mem_left inv.pairs p hp
          obtain ⟨-, o₁, ho₁, -, -⟩ := hrel
          rw [← hpk, ho₁]
          rfl
        · simp at hk
          rw [hk, ho]
          rfl
      have hKnd : (g.fwd.map Prod.fst ++ [addr]).Nodup := by
        refine inv.fNodup.append (List.nodup_singleton _) ?_
        intro x hx hxa
        simp at hxa
        subst hxa
        exact haddrNot hx
      have hsum := copied_sum_le_src src hsrc _ hKnd hKval
      rw [List.map_append, List.sum_append] at hsum
      have hone : ([addr].map (srcAllocAt src)).sum = allocSize o := by
        simp [srcAllocAt, ho]
      rw [hone] at hsum
      have hnexteq := dest_next_eq_copied_sum inv
      have hfit : g.dest.next + allocSize o ≤ g.dest.size := by
        have := inv.srcFit
        omega
      have halloc := SpaceM.allocM_ok g.dest (allocSize o) inv.dWf.2.2.2 hfit
      -- the fresh object pointer
      set n := g.dest.next + HEADER_SIZE with hn
      have hkeys_lt : ∀ p ∈ g.dest.objs, p.1 < n := by
        intro p hp
        have := layoutOk_key_lt_next 0 g.dest.objs inv.dWf.1 p hp
        rw [inv.dWf.2.1] at this
        exact this
      have hnotmem : n ∉ g.dest.objs.map Prod.fst := by
        intro hmem
        obtain ⟨p, hp, hpe⟩ := List.mem_map.mp hmem
        have := hkeys_lt p hp
        omega
      have hnq : n ∉ g.queue := fun hq => hnotmem (inv.qSub n hq)
      have hlookup_dest_none : lookup g.dest.objs n = none :=
        (lookup_eq_none_iff _ _).mpr hnotmem
      refine ⟨⟨⟨g.dest.size, g.dest.next + allocSize o,
          g.dest.objs ++ [(n, o)]⟩, g.queue ++ [n], g.fwd ++ [(addr, n)]⟩, n,
        ?_, ?_, ?_, ?_, ?_⟩
      · unfold visitObj
        simp only [hf, ho, halloc]
      · -- the invariant at the extended state
        have hkeys' : (g.dest.objs ++ [(n, o)]).map Prod.fst
            = g.dest.objs.map Prod.fst ++ [n] := by simp
        have hfNodup' : ((g.fwd ++ [(addr, n)]).map Prod.fst).Nodup := by
          rw [List.map_append]
          refine inv.fNodup.append (List.nodup_singleton _) ?_
          intro x hx hxa
          simp at hxa
          subst hxa
          exact haddrNot hx
        have hlookup_new : lookup (g.dest.objs ++ [(n, o)]) n = some o := by
          rw [lookup_append_none _ hlookup_dest_none]
          simp [lookup]
        have hsndmem : ∀ p ∈ g.fwd, p.2 ∈ g.dest.objs.map Prod.fst := by
          intro p hp
          rw [pairs_keys inv]
          exact List.mem_map.mpr ⟨p, hp, rfl⟩
        refine ⟨⟨?_, ?_, ?_, inv.dWf.2.2.2⟩, inv.srcFit, hfNodup', ?_, ?_, ?_, ?_, ?_, ?_⟩
        · exact layoutOk_append 0 g.dest.objs n o inv.dWf.1 (by rw [inv.dWf.2.1])
        · rw [layoutEnd_append, inv.dWf.2.1]
        · exact hfit
        · exact forall2_append_single inv.pairs ⟨rfl, o, ho, rfl, rfl⟩
        · -- fieldsUntraced
          intro p hp hcond
          rcases List.mem_append.mp hp with hpold | hpnew
          · have hp2 : p.2 ∈ g.dest.objs.map Prod.fst := hsndmem p hpold
            have hcond' : p.2 ∈ g.queue ∨ pend = some p.2 := by
              rcases hcond with hq | hpd
              · rcases List.mem_append.mp hq with hq | hq
                · exact Or.inl hq
                · simp at hq
                  exact absurd (hq ▸ hp2) hnotmem
              · exact Or.inr hpd
            obtain ⟨o₁, o₁', h1, h2, h3⟩ := inv.fieldsUntraced p hpold hcond'
            exact ⟨o₁, o₁', h1, lookup_append_some _ h2, h3⟩
          · simp at hpnew
            rw [hpnew]
            exact ⟨o, o, ho, hlookup_new, rfl⟩
        · -- fieldsTraced
          intro p hp hq hpend
          rcases List.mem_append.mp hp with hpold | hpnew
          · have hq' : p.2 ∉ g.queue := fun hmem =>
              hq (List.mem_append.mpr (Or.inl hmem))
            obtain ⟨o₁, o₁', h1, h2, h3⟩ := inv.fieldsTraced p hpold hq' hpend
            refine ⟨o₁, o₁', h1, lookup_append_some _ h2, ?_⟩
            refine h3.imp ?_
            intro a b hrw
            exact rewrittenVal_mono (List.prefix_append _ _) hfNodup' hrw
            
          · simp at hpnew
            exfalso
            apply hq
            rw [hpnew]
            simp
        · -- qSub
          intro m hm
          rw [hkeys']
          rcases List.mem_append.mp hm with hm | hm
          · exact List.mem_append.mpr (Or.inl (inv.qSub m hm))
          · exact List.mem_append.mpr (Or.inr hm)
        · -- qNodup
          refine inv.qNodup.append (List.nodup_singleton _) ?_
          intro x hx hxa
          simp at hxa
          subst hxa
          exact hnq hx
        · -- pendQ
          intro d hd
          obtain ⟨h1, h2⟩ := inv.pendQ d hd
          constructor
          · intro hmem
            rcases List.mem_append.mp hmem with hm | hm
            · exact h1 hm
            · simp at hm
              subst hm
              exact hnotmem h2
          · rw [hkeys']
            exact List.mem_append.mpr (Or.inl h2)
      · -- the cause record
        refine ⟨[Cause.root R.length], ?_, ?_⟩
        · simp [hca.1]
        · intro k c hc
          rcases Nat.lt_trichotomy k causes.length with hk | hk | hk
          · have hck : causes.get? k = some c := by
              rw [List.get?_append hk] at hc
              exact hc
            have hvold := hca.2 k c hck
            cases c with
            | root i =>
              obtain ⟨m, hdk, hR⟩ := hvold
              refine ⟨m, ?_, get?_append_left_of_some hR⟩
              unfold destKey at hdk ⊢
              cases hg : g.dest.objs.get? k with
              | none => rw [hg] at hdk; cases hdk
              | some q =>
                rw [hg] at hdk
                rw [get?_append_left_of_some hg]
                exact hdk
            | parent j =>
              obtain ⟨hjk, m, pk, po, hdk, hdj, hoj, hpkq, hpd, hmem⟩ := hvold
              unfold destKey at hdk hdj
              unfold destHObj at hoj
              cases hgk : g.dest.objs.get? k with
              | none => rw [hgk] at hdk; cases hdk
              | some qk =>
                cases hgj : g.dest.objs.get? j with
                | none => rw [hgj] at hdj; cases hdj
                | some qj =>
                  rw [hgk] at hdk
                  rw [hgj] at hdj hoj
                  refine ⟨hjk, m, pk, po, ?_, ?_, ?_, ?_, hpd, hmem⟩
                  · show ((g.dest.objs ++ [(n, o)]).get? k).map Prod.fst = some m
                    rw [get?_append_left_of_some hgk]
                    exact hdk
                  · show ((g.dest.objs ++ [(n, o)]).get? j).map Prod.fst = some pk
                    rw [get?_append_left_of_some hgj]
                    exact hdj
                  · show ((g.dest.objs ++ [(n, o)]).get? j).map Prod.snd = some po
                    rw [get?_append_left_of_some hgj]
                    exact hoj
                  · -- pk stays outside the grown queue
                    intro hq
                    rcases List.mem_append.mp hq with hq | hq
                    · exact hpkq hq
                    · simp at hq
                      apply hnotmem
                      rw [← hq]
                      have hqmem : qj ∈ g.dest.objs := List.get?_mem hgj
                      have hqj1 : qj.1 = pk := by
                        simp at hdj
                        exact hdj
                      rw [← hqj1]
                      exact List.mem_map.mpr ⟨qj, hqmem, rfl⟩
          · -- the fresh entry
            subst hk
            have hc' : c = Cause.root R.length := by
              rw [List.get?_concat_length] at hc
              cases hc
              rfl
            subst hc'
            refine ⟨n, ?_, ?_⟩
            · unfold destKey
              have : (g.dest.objs ++ [(n, o)]).get? g.dest.objs.length
                  = some (n, o) := List.get?_concat_length _ _
              rw [hca.1, this]
              rfl
            · exact List.get?_concat_length _ _
          · exfalso
            have hlen : (causes ++ [Cause.root R.length]).length ≤ k := by
              simp
              omega
            rw [List.get?_eq_none.mpr hlen] at hc
            cases hc
      · -- monotone step
        refine ⟨List.prefix_append _ _, List.prefix_append _ _,
          List.prefix_append _ _, rfl, by simp; omega, ?_⟩
        intro x hx hnx
        rcases List.mem_append.mp hx with hx | hx
        · exact absurd hx hnx
        · simp at hx
          subst hx
          exact hnotmem
      · rw [lookup_append_none _ hf]
        simp [lookup]

/-- Rewrite relation on optional root slots. -/
def rewrittenOpt (fwd : List (Nat × Nat)) : Option TVal → Option TVal → Prop
  | none, w => w = none
  | some v, w => ∃ v', w = some v' ∧ rewrittenVal fwd v v'

theorem rewrittenOpt_mono {fwd fwd' : List (Nat × Nat)} {v w : Option TVal}
    (hpre : fwd.IsPrefix fwd') (hnd : (fwd'.map Prod.fst).Nodup)
    (h : rewrittenOpt fwd v w) : rewrittenOpt fwd' v w := by
  cases v with
  | none => exact h
  | some v =>
    obtain ⟨v', hw, hr⟩ := h
    exact ⟨v', hw, rewrittenVal_mono hpre hnd hr⟩

theorem traceVal_ok (src : SpaceM) (pend : Option Nat) (R : List TVal)
    (causes : List Cause) (g : GcState) (v : TVal)
    (hsrc : src.wf) (inv : Inv src pend g) (hca : causeOk R pend g causes)
    (hvv : TVal.validB src v = true) :
    ∃ g' v',
      traceVal src g v = some (g', v')
      ∧ Inv src pend g'
      ∧ (∃ ext, causeOk (R ++ [v']) pend g' (causes ++ ext))
      ∧ GcStep g g'
      ∧ rewrittenVal g'.fwd v v' := by
  cases v with
  | obj addr =>
    have hvalid : (lookup src.objs addr).isSome := by
      unfold TVal.validB at hvv
      exact hvv
    obtain ⟨g', n, heq, hinv, hcau, hstep, hfwd⟩ :=
      visitObj_ok src pend R causes g addr hsrc inv hca hvalid
    refine ⟨g', TVal.obj n, ?_, hinv, hcau, hstep, ⟨n, hfwd, rfl⟩⟩
    unfold traceVal
    simp [heq]
  | num bits =>
    exact ⟨g, .num bits, rfl, inv, ⟨[], by simpa using causeOk_R_append hca⟩,
      GcStep_refl g, rfl⟩
  | vnull =>
    exact ⟨g, .vnull, rfl, inv, ⟨[], by simpa using causeOk_R_append hca⟩,
      GcStep_refl g, rfl⟩
  | vbool b =>
    exact ⟨g, .vbool b, rfl, inv, ⟨[], by simpa using causeOk_R_append hca⟩,
      GcStep_refl g, rfl⟩

theorem traceVals_ok (src : SpaceM) (pend : Option Nat) (hsrc : src.wf) :
    ∀ (vs : List TVal) (R : List TVal) (causes : List Cause) (g : GcState),
      Inv src pend g → causeOk R pend g causes →
      (∀ v ∈ vs, TVal.validB src v = true) →
      ∃ g' vs',
        traceVals src g vs = some (g', vs')
        ∧ Inv src pend g'
        ∧ (∃ ext, causeOk (R ++ vs') pend g' (causes ++ ext))
        ∧ GcStep g g'
        ∧ List.Forall₂ (rewrittenVal g'.fwd) vs vs'
  | [], R, causes, g, inv, hca, _ =>
    ⟨g, [], rfl, inv, ⟨[], by simpa using hca⟩, GcStep_refl g, .nil⟩
  | v :: rest, R, causes, g, inv, hca, hval => by
    obtain ⟨g₁, v₁, heq₁, hinv₁, ⟨ext₁, hca₁⟩, hstep₁, hrw₁⟩ :=
      traceVal_ok src pend R causes g v hsrc inv hca (hval v (by simp))
    obtain ⟨g₂, rest', heq₂, hinv₂, ⟨ext₂, hca₂⟩, hstep₂, hrw₂⟩ :=
      traceVals_ok src pend hsrc rest (R ++ [v₁]) (causes ++ ext₁) g₁ hinv₁ hca₁
        (fun w hw => hval w (by simp [hw]))
    refine ⟨g₂, v₁ :: rest', ?_, hinv₂, ⟨ext₁ ++ ext₂, ?_⟩,
      GcStep_trans hstep₁ hstep₂, ?_⟩
    · unfold traceVals
      simp only [heq₁, heq₂]
    · have : R ++ [v₁] ++ rest' = R ++ (v₁ :: rest') := by simp
      rw [← this, ← List.append_assoc]
      exact hca₂
    · exact .cons (rewrittenVal_mono hstep₂.1 hinv₂.fNodup hrw₁) hrw₂

theorem traceMaybeVals_ok (src : SpaceM) (pend : Option Nat) (hsrc : src.wf) :
    ∀ (vs : List (Option TVal)) (R : List TVal) (causes : List Cause) (g : GcState),
      Inv src pend g → causeOk R pend g causes →
      (∀ ov ∈ vs, validOptB src ov = true) →
      ∃ g' vs',
        traceMaybeVals src g vs = some (g', vs')
        ∧ Inv src pend g'
        ∧ (∃ ext, causeOk (R ++ vs'.filterMap id) pend g' (causes ++ ext))
        ∧ GcStep g g'
        ∧ List.Forall₂ (rewrittenOpt g'.fwd) vs vs'
  | [], R, causes, g, inv, hca, _ =>
    ⟨g, [], rfl, inv, ⟨[], by simpa using hca⟩, GcStep_refl g, .nil⟩
  | none :: rest, R, causes, g, inv, hca, hval => by
    obtain ⟨g₂, rest', heq₂, hinv₂, ⟨ext₂, hca₂⟩, hstep₂, hrw₂⟩ :=
      traceMaybeVals_ok src pend hsrc rest R causes g inv hca
        (fun w hw => hval w (by simp [hw]))
    refine ⟨g₂, none :: rest', ?_, hinv₂, ⟨ext₂, by simpa using hca₂⟩, hstep₂, ?_⟩
    · unfold traceMaybeVals
      simp only [heq₂]
    · exact .cons rfl hrw₂
  | some v :: rest, R, causes, g, inv, hca, hval => by
    obtain ⟨g₁, v₁, heq₁, hinv₁, ⟨ext₁, hca₁⟩, hstep₁, hrw₁⟩ :=
      traceVal_ok src pend R causes g v hsrc inv hca
        (by have := hval (some v) (by simp); exact this)
    obtain ⟨g₂, rest', heq₂, hinv₂, ⟨ext₂, hca₂⟩, hstep₂, hrw₂⟩ :=
      traceMaybeVals_ok src pend hsrc rest (R ++ [v₁]) (causes ++ ext₁) g₁ hinv₁ hca₁
        (fun w hw => hval w (by simp [hw]))
    refine ⟨g₂, some v₁ :: rest', ?_, hinv₂, ⟨ext₁ ++ ext₂, ?_⟩,
      GcStep_trans hstep₁ hstep₂, ?_⟩
    · unfold traceMaybeVals
      simp only [heq₁, heq₂]
    · have h1 : (some v₁ :: rest').filterMap id = v₁ :: rest'.filterMap id := by simp
      rw [h1]
      have h2 : R ++ [v₁] ++ rest'.filterMap id = R ++ (v₁ :: rest'.filterMap id) := by
        simp
      rw [← h2, ← List.append_assoc]
      exact hca₂
    · exact .cons ⟨v₁, rfl, rewrittenVal_mono hstep₂.1 hinv₂.fNodup hrw₁⟩ hrw₂

theorem traceScopes_ok (src : SpaceM) (pend : Option Nat) (hsrc : src.wf) :
    ∀ (vs : List (List TVal)) (R : List TVal) (causes : List Cause) (g : GcState),
      Inv src pend g → causeOk R pend g causes →
      (∀ frame ∈ vs, ∀ v ∈ frame, TVal.validB src v = true) →
      ∃ g' vs',
        traceScopes src g vs = some (g', vs')
        ∧ Inv src pend g'
        ∧ (∃ ext, causeOk (R ++ vs'.join) pend g' (causes ++ ext))
        ∧ GcStep g g'
        ∧ List.Forall₂ (fun f f' => List.Forall₂ (rewrittenVal g'.fwd) f f') vs vs'
  | [], R, causes, g, inv, hca, _ =>
    ⟨g, [], rfl, inv, ⟨[], by simpa using hca⟩, GcStep_refl g, .nil⟩
  | frame :: rest, R, causes, g, inv, hca, hval => by
    obtain ⟨g₁, frame', heq₁, hinv₁, ⟨ext₁, hca₁⟩, hstep₁, hrw₁⟩ :=
      traceVals_ok src pend hsrc frame R causes g inv hca
        (hval frame (by simp))
    obtain ⟨g₂, rest', heq₂, hinv₂, ⟨ext₂, hca₂⟩, hstep₂, hrw₂⟩ :=
      traceScopes_ok src pend hsrc rest (R ++ frame') (causes ++ ext₁) g₁ hinv₁ hca₁
        (fun f hf => hval f (by simp [hf]))
    refine ⟨g₂, frame' :: rest', ?_, hinv₂, ⟨ext₁ ++ ext₂, ?_⟩,
      GcStep_trans hstep₁ hstep₂, ?_⟩
    · unfold traceScopes
      simp only [heq₁, heq₂]
    · have h1 : (frame' :: rest').join = frame' ++ rest'.join := by simp
      rw [h1, ← List.append_assoc, ← List.append_assoc]
      exact hca₂
    · refine .cons ?_ hrw₂
      exact hrw₁.imp fun a b hin =>
        rewrittenVal_mono hstep₂.1 hinv₂.fNodup hin

/-! ### setEntry and bookkeeping lemmas for the drain phase -/

theorem setEntry_get?_ne {α : Type} :
    ∀ {l : List (Nat × α)} {i k : Nat} {y : α} {q : Nat × α},
      l.get? i = some q → q.1 ≠ k → (setEntry l k y).get? i = some q
  | [], i, _, _, _, hq, _ => by simp at hq
  | (a, x) :: rest, 0, k, y, q, hq, hne => by
    rw [List.get?_cons_zero] at hq
    cases hq
    have hak : a ≠ k := hne
    simp only [setEntry, if_neg hak, List.get?_cons_zero]
  | (a, x) :: rest, i + 1, k, y, q, hq, hne => by
    rw [List.get?_cons_succ] at hq
    by_cases hak : a = k
    · simp only [setEntry, if_pos hak, List.get?_cons_succ]
      exact hq
    · simp only [setEntry, if_neg hak, List.get?_cons_succ]
      exact setEntry_get?_ne hq hne

theorem setEntry_get?_self {α : Type} :
    ∀ {l : List (Nat × α)} {i k : Nat} {y : α} {q : Nat × α},
      (l.map Prod.fst).Nodup → l.get? i = some q → q.1 = k →
      (setEntry l k y).get? i = some (k, y)
  | [], i, _, _, _, _, hq, _ => by simp at hq
  | (a, x) :: rest, 0, k, y, q, _, hq, hke => by
    rw [List.get?_cons_zero] at hq
    cases hq
    have hak : a = k := hke
    subst hak
    simp [setEntry]
  | (a, x) :: rest, i + 1, k, y, q, hnd, hq, hke => by
    rw [List.map_cons, List.nodup_cons] at hnd
    rw [List.get?_cons_succ] at hq
    have hak : a ≠ k := by
      intro he
      subst he
      apply hnd.1
      have hmem : q ∈ rest := List.get?_mem hq
      rw [← hke]
      exact List.mem_map.mpr ⟨q, hmem, rfl⟩
    simp only [setEntry, if_neg hak, List.get?_cons_succ]
    exact setEntry_get?_self hnd.2 hq hke

theorem destKey_setEntry (g : GcState) (d : Nat) (y : HObj) (k : Nat) :
    ((setEntry g.dest.objs d y).get? k).map Prod.fst
      = (g.dest.objs.get? k).map Prod.fst := by
  rw [← List.get?_map, ← List.get?_map, setEntry_keys]

theorem setEntry_layoutOk :
    ∀ {l : List (Nat × HObj)} {acc k : Nat} {y x : HObj},
      lookup l k = some x → y.object_size = x.object_size →
      layoutOk acc l → layoutOk acc (setEntry l k y)
  | [], _, _, _, _, hl, _, _ => by simp [lookup] at hl
  | (a, o) :: rest, acc, k, y, x, hl, hsz, hok => by
    by_cases hak : a = k
    · subst hak
      simp [lookup] at hl
      subst hl
      simp only [setEntry, if_pos rfl]
      refine ⟨hok.1, ?_⟩
      have : allocSize y = allocSize o := by
        unfold allocSize
        rw [hsz]
      rw [this]
      exact hok.2
    · simp [lookup, hak] at hl
      simp only [setEntry, if_neg hak]
      exact ⟨hok.1, setEntry_layoutOk hl hsz hok.2⟩

theorem setEntry_layoutEnd :
    ∀ {l : List (Nat × HObj)} {acc k : Nat} {y x : HObj},
      lookup l k = some x → y.object_size = x.object_size →
      layoutEnd acc (setEntry l k y) = layoutEnd acc l
  | [], _, _, _, _, hl, _ => by simp [lookup] at hl
  | (a, o) :: rest, acc, k, y, x, hl, hsz => by
    by_cases hak : a = k
    · subst hak
      simp [lookup] at hl
      subst hl
      simp only [setEntry, if_pos rfl]
      show layoutEnd (acc + allocSize y) rest = layoutEnd (acc + allocSize o) rest
      have : allocSize y = allocSize o := by
        unfold allocSize
        rw [hsz]
      rw [this]
    · simp [lookup, hak] at hl
      simp only [setEntry, if_neg hak]
      show layoutEnd (acc + allocSize o) (setEntry rest k y)
          = layoutEnd (acc + allocSize o) ((a, o) :: rest).tail
      exact setEntry_layoutEnd hl hsz

theorem setEntry_forall2 {src : SpaceM} :
    ∀ {F : List (Nat × Nat)} {l : List (Nat × HObj)} {k : Nat} {y : HObj},
      List.Forall₂ (copyRel src) F l →
      (∀ q, (k, q) ∈ l → y.object_size = q.object_size ∧ y.native = q.native) →
      List.Forall₂ (copyRel src) F (setEntry l k y)
  | _, _, k, y, .nil, _ => .nil
  | _, _, k, y, .cons hrel htail, hsame => by
    rename_i p q F' l'
    by_cases hak : q.1 = k
    · obtain ⟨a, o⟩ := q
      simp at hak
      subst hak
      simp only [setEntry, if_pos rfl]
      refine .cons ?_ htail
      obtain ⟨hp2, o₁, ho₁, hsz, hnat⟩ := hrel
      have hq := hsame o (by simp)
      exact ⟨hp2, o₁, ho₁, by rw [hq.1, hsz], by rw [hq.2, hnat]⟩
    · obtain ⟨a, o⟩ := q
      have hak' : a ≠ k := hak
      simp only [setEntry, if_neg hak']
      refine .cons hrel (setEntry_forall2 htail ?_)
      intro q' hq'
      exact hsame q' (List.mem_cons_of_mem _ hq')

theorem snd_inj_of_nodup {l : List (Nat × Nat)}
    (hnd : (l.map Prod.snd).Nodup) {p q : Nat × Nat}
    (hp : p ∈ l) (hq : q ∈ l) (he : p.2 = q.2) : p = q := by
  have := List.inj_on_of_nodup_map hnd
  exact this hp hq he

theorem fwd_length_le_src {src : SpaceM} {pend : Option Nat} {g : GcState}
    (inv : Inv src pend g) : g.fwd.length ≤ src.objs.length := by
  have hsubset : g.fwd.map Prod.fst ⊆ src.objs.map Prod.fst := by
    intro k hk
    obtain ⟨p, hp, hpk⟩ := List.mem_map.mp hk
    obtain ⟨q, hrel⟩ := forall2_mem_left inv.pairs p hp
    obtain ⟨-, o, ho, -, -⟩ := hrel
    rw [← hpk]
    exact (lookup_isSome_iff_mem_keys _ _).mp (by rw [ho]; rfl)
  have := (inv.fNodup.subperm hsubset).length_le
  simpa using this

/-- HeapInner::update_weak never goes wrong on valid weaks, and every
surviving entry is the forwarded pointer of a copied object. -/
theorem updateWeak_ok (src : SpaceM) (fwd : List (Nat × Nat)) :
    ∀ (ws : List TVal), (∀ v ∈ ws, TVal.validB src v = true) →
      ∃ surv doomed, updateWeak src fwd ws = some (surv, doomed)
        ∧ ∀ v ∈ surv, ∃ a n, lookup fwd a = some n ∧ v = TVal.obj n
  | [], _ => ⟨[], [], rfl, by simp⟩
  | v :: rest, hval => by
    obtain ⟨surv, doomed, heq, hsurv⟩ :=
      updateWeak_ok src fwd rest (fun w hw => hval w (by simp [hw]))
    cases v with
    | obj a =>
      cases hf : lookup fwd a with
      | some n =>
        refine ⟨TVal.obj n :: surv, doomed, ?_, ?_⟩
        · unfold updateWeak
          simp only [hf, heq]
        · intro w hw
          rcases List.mem_cons.mp hw with hw | hw
          · exact ⟨a, n, hf, hw⟩
          · exact hsurv w hw
      | none =>
        have hvalid : (lookup src.objs a).isSome = true := hval (TVal.obj a) (by simp)
        cases ho : lookup src.objs a with
        | none => rw [ho] at hvalid; cases hvalid
        | some o =>
          refine ⟨surv, o.native :: doomed, ?_, hsurv⟩
          unfold updateWeak
          simp only [hf, ho, heq]
    | num bits =>
      refine ⟨surv, doomed, ?_, hsurv⟩
      unfold updateWeak
      simp only [heq]
    | vnull =>
      refine ⟨surv, doomed, ?_, hsurv⟩
      unfold updateWeak
      simp only [heq]
    | vbool b =>
      refine ⟨surv, doomed, ?_, hsurv⟩
      unfold updateWeak
      simp only [heq]

/-- Queue-drain lemma: with enough fuel (one unit per dequeue, bounded by
the queue length plus the number of source objects not yet copied),
draining succeeds, preserves the invariant, empties the queue, only
extends the forwarding map, and keeps the cause record valid relative to
the fixed processed-roots list `R`. -/
theorem drain_ok (src : SpaceM) (hsrc : src.wf)
    (hsrcFields : ∀ p ∈ src.objs, ∀ v ∈ p.2.fields, TVal.validB src v = true) :
    ∀ (fuel : Nat) (R : List TVal) (causes : List Cause) (g : GcState),
      Inv src none g → causeOk R none g causes →
      g.queue.length + src.objs.length ≤ fuel + g.fwd.length →
      ∃ g',
        drain src fuel g = some g'
        ∧ Inv src none g'
        ∧ (∃ ext, causeOk R none g' (causes ++ ext))
        ∧ g.fwd.IsPrefix g'.fwd
        ∧ g'.queue = []
        ∧ g'.dest.size = g.dest.size
  | 0, R, causes, g, inv, hca, hfuel => by
    have hlen := fwd_length_le_src inv
    have hq : g.queue = [] := by
      have : g.queue.length = 0 := by omega
      exact List.length_eq_zero.mp this
    refine ⟨g, ?_, inv, ⟨[], by simpa using hca⟩, List.prefix_refl _, hq, rfl⟩
    unfold drain
    simp [hq]
  | fuel + 1, R, causes, g, inv, hca, hfuel => by
    cases hq : g.queue with
    | nil =>
      refine ⟨g, ?_, inv, ⟨[], by simpa using hca⟩, List.prefix_refl _, hq, rfl⟩
      unfold drain
      simp only [hq]
    | cons d qrest =>
      -- identify the forwarding pair that created d and its source object
      have hdq : d ∈ g.queue := by rw [hq]; simp
      have hdkeys : d ∈ g.dest.objs.map Prod.fst := inv.qSub d hdq
      have hdsnd : d ∈ g.fwd.map Prod.snd := by
        rw [← pairs_keys inv]; exact hdkeys
      obtain ⟨p, hpmem, hp2⟩ := List.mem_map.mp hdsnd
      obtain ⟨oSrc, oDest, hosrc, hodest, hfields⟩ :=
        inv.fieldsUntraced p hpmem (Or.inl (by rw [hp2]; exact hdq))
      rw [hp2] at hodest
      have hqnodup := inv.qNodup
      rw [hq] at hqnodup
      have hdnotqrest : d ∉ qrest := (List.nodup_cons.mp hqnodup).1
      have hqrestnodup : qrest.Nodup := (List.nodup_cons.mp hqnodup).2
      -- step 1: pop d and mark it pending
      have hinv₁ : Inv src (some d) { g with queue := qrest } := by
        refine ⟨inv.dWf, inv.srcFit, inv.fNodup, inv.pairs, ?_, ?_, ?_, hqrestnodup, ?_⟩
        · intro p' hp' hcond
          refine inv.fieldsUntraced p' hp' ?_
          rcases hcond with hc | hc
          · exact Or.inl (by rw [hq]; exact List.mem_cons_of_mem _ hc)
          · have : p'.2 = d := by cases hc; rfl
            exact Or.inl (by rw [hq, this]; simp)
        · intro p' hp' hnq hpd
          refine inv.fieldsTraced p' hp' ?_ (by simp)
          rw [hq]
          intro hmem
          rcases List.mem_cons.mp hmem with he | hm
          · exact hpd (by rw [he])
          · exact hnq hm
        · intro m hm
          exact inv.qSub m (by rw [hq]; exact List.mem_cons_of_mem _ hm)
        · intro d' hd'
          cases hd'
          exact ⟨hdnotqrest, hdkeys⟩
      have hca₁ : causeOk R (some d) { g with queue := qrest } causes := by
        refine ⟨hca.1, ?_⟩
        intro k c hc
        have hv := hca.2 k c hc
        cases c with
        | root i => exact hv
        | parent j =>
          obtain ⟨hjk, m, pk, po, h1, h2, h3, h4, h5, h6⟩ := hv
          refine ⟨hjk, m, pk, po, h1, h2, h3, ?_, ?_, h6⟩
          · intro hmem
            exact h4 (by rw [hq]; exact List.mem_cons_of_mem _ hmem)
          · intro he
            cases he
            exact h4 (by rw [hq]; simp)
      -- step 2: trace the native's fields (they are the source copy)
      have hfieldsValid : ∀ v ∈ oSrc.fields, TVal.validB src v = true :=
        fun v hv => hsrcFields (p.1, oSrc) (lookup_mem hosrc) v hv
      obtain ⟨g₂, fields', heq₂, hinv₂, ⟨ext₂, hca₂⟩, hstep₂, hrw₂⟩ :=
        traceVals_ok src (some d) hsrc oSrc.fields R causes { g with queue := qrest }
          hinv₁ hca₁ hfieldsValid
      have hkeys₂nodup := dest_keys_nodup hinv₂
      have hdnotq₂ := hinv₂.pendQ d rfl
      have hodest₂ : lookup g₂.dest.objs d = some oDest :=
        lookup_grow hstep₂.2.1 hkeys₂nodup hodest
      -- step 3: commit the rewritten fields into the copy
      have hszEq : ({ oDest with fields := fields' } : HObj).object_size
          = oDest.object_size := rfl
      have hinv₃ : Inv src none
          { g₂ with dest := { g₂.dest with
              objs := setEntry g₂.dest.objs d { oDest with fields := fields' } } } := by
        refine ⟨⟨?_, ?_, hinv₂.dWf.2.2.1, hinv₂.dWf.2.2.2⟩, hinv₂.srcFit,
          hinv₂.fNodup, ?_, ?_, ?_, ?_, hinv₂.qNodup, ?_⟩
        · show layoutOk 0 (setEntry g₂.dest.objs d { oDest with fields := fields' })
          exact setEntry_layoutOk hodest₂ hszEq hinv₂.dWf.1
        · show layoutEnd 0 (setEntry g₂.dest.objs d { oDest with fields := fields' })
            = g₂.dest.next
          rw [setEntry_layoutEnd hodest₂ hszEq]
          exact hinv₂.dWf.2.1
        · refine setEntry_forall2 hinv₂.pairs ?_
          intro q hqmem
          have hlq : lookup g₂.dest.objs d = some q :=
            mem_lookup_of_nodup hkeys₂nodup hqmem
          rw [hodest₂] at hlq
          cases hlq
          exact ⟨rfl, rfl⟩
        · intro p' hp' hcond
          rcases hcond with hcq | hcp
          · have hne : p'.2 ≠ d := fun he => hdnotq₂.1 (he ▸ hcq)
            obtain ⟨o₁, o₁', h1, h2, h3⟩ := hinv₂.fieldsUntraced p' hp' (Or.inl hcq)
            exact ⟨o₁, o₁', h1, by rw [lookup_setEntry_other _ _ hne]; exact h2, h3⟩
          · cases hcp
        · intro p' hp' hnq hpd
          by_cases hpd2 : p'.2 = d
          · have hsndnd : (g₂.fwd.map Prod.snd).Nodup := by
              rw [← pairs_keys hinv₂]
              exact hkeys₂nodup
            have hp'' : p' = p :=
              snd_inj_of_nodup hsndnd hp' (hstep₂.1.subset hpmem)
                (by rw [hp2, hpd2])
            subst hp''
            refine ⟨oSrc, { oDest with fields := fields' }, hosrc, ?_, hrw₂⟩
            rw [hpd2]
            exact lookup_setEntry_self _ (by rw [hodest₂]; rfl)
          · obtain ⟨o₁, o₁', h1, h2, h3⟩ :=
              hinv₂.fieldsTraced p' hp' hnq
                (fun he => hpd2 (by cases he; rfl))
            exact ⟨o₁, o₁', h1, by rw [lookup_setEntry_other _ _ hpd2]; exact h2, h3⟩
        · intro m hm
          rw [setEntry_keys]
          exact hinv₂.qSub m hm
        · intro d' hd'
          cases hd'
      -- the position of d among the original destination objects
      obtain ⟨jd, qd, hjd, hqd1⟩ : ∃ j q, g.dest.objs.get? j = some q ∧ q.1 = d := by
        obtain ⟨q, hqmem, hq1⟩ := List.mem_map.mp hdkeys
        obtain ⟨j, hj⟩ := List.mem_iff_get?.mp hqmem
        exact ⟨j, q, hj, hq1⟩
      have hjdlt : jd < g.dest.objs.length := by
        by_contra hno
        rw [List.get?_eq_none.mpr (Nat.not_lt.mp hno)] at hjd
        cases hjd
      obtain ⟨tl, htl⟩ := hstep₂.2.1
      have hjd₂ : g₂.dest.objs.get? jd = some qd := by
        rw [← htl]
        exact get?_append_left_of_some hjd
      -- cause record for the committed state
      have hca₃ : causeOk R none
          { g₂ with dest := { g₂.dest with
              objs := setEntry g₂.dest.objs d { oDest with fields := fields' } } }
          (causes ++ ext₂.map fun c => match c with
            | Cause.root i => if i < R.length then Cause.root i else Cause.parent jd
            | Cause.parent j => Cause.parent j) := by
        have hdestKey₃ : ∀ k, destKey
            { g₂ with dest := { g₂.dest with
                objs := setEntry g₂.dest.objs d { oDest with fields := fields' } } } k
            = destKey g₂ k := by
          intro k
          unfold destKey
          exact destKey_setEntry g₂ d _ k
        have hdestKey₂ : ∀ k m, destKey g k = some m → destKey g₂ k = some m := by
          intro k m hm
          unfold destKey at hm ⊢
          cases hgk : g.dest.objs.get? k with
          | none => rw [hgk] at hm; cases hm
          | some q =>
            rw [hgk] at hm
            rw [← htl, get?_append_left_of_some hgk]
            exact hm
        constructor
        · have h1 := hca₂.1
          have hsetlen : (setEntry g₂.dest.objs d { oDest with fields := fields' }).length
              = g₂.dest.objs.length := by
            have hk := congrArg List.length
              (setEntry_keys g₂.dest.objs d { oDest with fields := fields' })
            simpa using hk
          simp only [List.length_append, List.length_map] at h1 ⊢
          show causes.length + ext₂.length
              = (setEntry g₂.dest.objs d { oDest with fields := fields' }).length
          omega
        · intro k c hc
          by_cases hk : k < causes.length
          · -- an old cause, transported forward
            rw [List.get?_append hk] at hc
            have hv := hca.2 k c hc
            cases c with
            | root i =>
              obtain ⟨m, hdk, hR⟩ := hv
              exact ⟨m, by rw [hdestKey₃]; exact hdestKey₂ k m hdk, hR⟩
            | parent j =>
              obtain ⟨hjk, m, pk, po, h1, h2, h3, h4, h5, h6⟩ := hv
              -- the witness entry at position j
              have hentry : ∃ q', g.dest.objs.get? j = some q' ∧ q'.1 = pk ∧ q'.2 = po := by
                unfold destKey at h2
                unfold destHObj at h3
                cases hgj : g.dest.objs.get? j with
                | none => rw [hgj] at h2; cases h2
                | some q' =>
                  rw [hgj] at h2 h3
                  refine ⟨q', rfl, ?_, ?_⟩
                  · simpa using h2
                  · simpa using h3
              obtain ⟨q', hgj, hq'1, hq'2⟩ := hentry
              have hpkkeys : pk ∈ g.dest.objs.map Prod.fst := by
                rw [← hq'1]
                exact List.mem_map.mpr ⟨q', List.get?_mem hgj, rfl⟩
              have hpkne : pk ≠ d := fun he => h4 (he ▸ hdq)
              have hpknotq₂ : pk ∉ g₂.queue := by
                intro hmem
                by_cases hq1 : pk ∈ qrest
                · exact h4 (by rw [hq]; exact List.mem_cons_of_mem _ hq1)
                · exact hstep₂.2.2.2.2.2 pk hmem hq1 hpkkeys
              have hgj₂ : g₂.dest.objs.get? j = some q' := by
                rw [← htl]
                exact get?_append_left_of_some hgj
              have hgj₃ : (setEntry g₂.dest.objs d
                  { oDest with fields := fields' }).get? j = some q' :=
                setEntry_get?_ne hgj₂ (by rw [hq'1]; exact hpkne)
              refine ⟨hjk, m, pk, po, ?_, ?_, ?_, hpknotq₂, by simp, h6⟩
              · rw [hdestKey₃]
                exact hdestKey₂ k m h1
              · show ((setEntry g₂.dest.objs d
                    { oDest with fields := fields' }).get? j).map Prod.fst = some pk
                rw [hgj₃]
                simp [hq'1]
              · show ((setEntry g₂.dest.objs d
                    { oDest with fields := fields' }).get? j).map Prod.snd = some po
                rw [hgj₃]
                simp [hq'2]
          · -- a cause recorded during this trace
            have hk' : causes.length ≤ k := Nat.not_lt.mp hk
            rw [List.get?_append_right hk'] at hc
            rw [List.get?_map] at hc
            cases hc₂eq : ext₂.get? (k - causes.length) with
            | none => rw [hc₂eq] at hc; cases hc
            | some c₂ =>
              rw [hc₂eq] at hc
              have hcext : (causes ++ ext₂).get? k = some c₂ := by
                rw [List.get?_append_right hk']
                exact hc₂eq
              have hv₂ := hca₂.2 k c₂ hcext
              have hjdk : jd < k := by
                have := hca.1
                omega
              -- common facts about position jd in the committed state
              have hjd₃ : (setEntry g₂.dest.objs d
                  { oDest with fields := fields' }).get? jd
                  = some (d, { oDest with fields := fields' }) :=
                @setEntry_get?_self HObj g₂.dest.objs jd d
                  { oDest with fields := fields' } qd hkeys₂nodup hjd₂ hqd1
              cases c₂ with
              | root i =>
                obtain ⟨m, hdk₂, hR₂⟩ := hv₂
                simp only [Option.map_some'] at hc
                by_cases hi : i < R.length
                · rw [if_pos hi] at hc
                  cases hc
                  refine ⟨m, by rw [hdestKey₃]; exact hdk₂, ?_⟩
                  rw [List.get?_append hi] at hR₂
                  exact hR₂
                · rw [if_neg hi] at hc
                  cases hc
                  refine ⟨hjdk, m, d, { oDest with fields := fields' }, ?_, ?_, ?_,
                    hdnotq₂.1, by simp, ?_⟩
                  · rw [hdestKey₃]
                    exact hdk₂
                  · show ((setEntry g₂.dest.objs d
                        { oDest with fields := fields' }).get? jd).map Prod.fst = some d
                    rw [hjd₃]
                    rfl
                  · show ((setEntry g₂.dest.objs d
                        { oDest with fields := fields' }).get? jd).map Prod.snd
                        = some { oDest with fields := fields' }
                    rw [hjd₃]
                    rfl
                  · show TVal.obj m ∈ fields'
                    rw [List.get?_append_right (Nat.not_lt.mp hi)] at hR₂
                    exact List.get?_mem hR₂
              | parent j =>
                simp only [Option.map_some'] at hc
                cases hc
                obtain ⟨hjk, m, pk, po, h1, h2, h3, h4, h5, h6⟩ := hv₂
                have hpkne : pk ≠ d := fun he => h5 (by rw [he])
                have hentry : ∃ q', g₂.dest.objs.get? j = some q'
                    ∧ q'.1 = pk ∧ q'.2 = po := by
                  unfold destKey at h2
                  unfold destHObj at h3
                  cases hgj : g₂.dest.objs.get? j with
                  | none => rw [hgj] at h2; cases h2
                  | some q' =>
                    rw [hgj] at h2 h3
                    refine ⟨q', rfl, ?_, ?_⟩
                    · simpa using h2
                    · simpa using h3
                obtain ⟨q', hgj₂, hq'1, hq'2⟩ := hentry
                have hgj₃ : (setEntry g₂.dest.objs d
                    { oDest with fields := fields' }).get? j = some q' :=
                  setEntry_get?_ne hgj₂ (by rw [hq'1]; exact hpkne)
                refine ⟨hjk, m, pk, po, ?_, ?_, ?_, h4, by simp, h6⟩
                · rw [hdestKey₃]
                  exact h1
                · show ((setEntry g₂.dest.objs d
                      { oDest with fields := fields' }).get? j).map Prod.fst = some pk
                  rw [hgj₃]
                  simp [hq'1]
                · show ((setEntry g₂.dest.objs d
                      { oDest with fields := fields' }).get? j).map Prod.snd = some po
                  rw [hgj₃]
                  simp [hq'2]
      -- step 4: recurse on the remaining queue
      have hfuel₃ : ({ g₂ with dest := { g₂.dest with
            objs := setEntry g₂.dest.objs d { oDest with fields := fields' } } }
              : GcState).queue.length + src.objs.length
          ≤ fuel + ({ g₂ with dest := { g₂.dest with
            objs := setEntry g₂.dest.objs d { oDest with fields := fields' } } }
              : GcState).fwd.length := by
        have hgrow := hstep₂.2.2.2.2.1
        have hqlen : g.queue.length = qrest.length + 1 := by rw [hq]; rfl
        simp only at hgrow ⊢
        omega
      obtain ⟨g₄, heq₄, hinv₄, ⟨ext₄, hca₄⟩, hpre₄, hq₄, hsz₄⟩ :=
        drain_ok src hsrc hsrcFields fuel R _ _ hinv₃ hca₃ hfuel₃
      refine ⟨g₄, ?_, hinv₄, ⟨(ext₂.map fun c => match c with
            | Cause.root i => if i < R.length then Cause.root i else Cause.parent jd
            | Cause.parent j => Cause.parent j) ++ ext₄, ?_⟩, ?_, hq₄, ?_⟩
      · unfold drain
        simp only [hq, hodest, hfields, heq₂, heq₄]
      · rw [← List.append_assoc]
        exact hca₄
      · have hpre₂ : g.fwd.IsPrefix g₂.fwd := hstep₂.1
        exact hpre₂.trans hpre₄
      · rw [hsz₄]
        exact (hstep₂.2.2.2.1).symm

/-! ### Reachability from the heap's roots -/

/-- An object address reachable from the heap's roots (scope frames and
globals) through the fields of live objects.  This is exactly the set of
objects `Heap::collect` keeps. -/
inductive Reaches (h : HeapM) : Nat → Prop
  | scopeRoot (a : Nat) : TVal.obj a ∈ h.scopes.join → Reaches h a
  | globalRoot (a : Nat) : some (TVal.obj a) ∈ h.globals → Reaches h a
  | field (a b : Nat) (o : HObj) : Reaches h b →
      lookup h.space.objs b = some o → TVal.obj a ∈ o.fields → Reaches h a

theorem forall2_exists_right {α β : Type} {R : α → β → Prop} :
    ∀ {l₁ : List α} {l₂ : List β}, List.Forall₂ R l₁ l₂ →
      ∀ a ∈ l₁, ∃ b ∈ l₂, R a b
  | _, _, .nil => by intro a ha; simp at ha
  | _, _, .cons h₁ h₂ => by
    intro a ha
    rcases List.mem_cons.mp ha with he | hm
    · subst he
      exact ⟨_, by simp, h₁⟩
    · obtain ⟨b, hb, hr⟩ := forall2_exists_right h₂ a hm
      exact ⟨b, List.mem_cons_of_mem _ hb, hr⟩

theorem forall2_exists_left {α β : Type} {R : α → β → Prop} :
    ∀ {l₁ : List α} {l₂ : List β}, List.Forall₂ R l₁ l₂ →
      ∀ b ∈ l₂, ∃ a ∈ l₁, R a b
  | _, _, .nil => by intro b hb; simp at hb
  | _, _, .cons h₁ h₂ => by
    intro b hb
    rcases List.mem_cons.mp hb with he | hm
    · subst he
      exact ⟨_, by simp, h₁⟩
    · obtain ⟨a, ha, hr⟩ := forall2_exists_left h₂ b hm
      exact ⟨a, List.mem_cons_of_mem _ ha, hr⟩

theorem forall2_join_right {α β : Type} {R : α → β → Prop}
    {l₁ : List (List α)} {l₂ : List (List β)}
    (h : List.Forall₂ (fun f f' => List.Forall₂ R f f') l₁ l₂) :
    ∀ a ∈ l₁.join, ∃ b ∈ l₂.join, R a b := by
  intro a ha
  rw [List.mem_join] at ha
  obtain ⟨f, hf, haf⟩ := ha
  obtain ⟨f', hf', hff'⟩ := forall2_exists_right h f hf
  obtain ⟨b, hb, hr⟩ := forall2_exists_right hff' a haf
  exact ⟨b, List.mem_join.mpr ⟨f', hf', hb⟩, hr⟩

theorem forall2_join_left {α β : Type} {R : α → β → Prop}
    {l₁ : List (List α)} {l₂ : List (List β)}
    (h : List.Forall₂ (fun f f' => List.Forall₂ R f f') l₁ l₂) :
    ∀ b ∈ l₂.join, ∃ a ∈ l₁.join, R a b := by
  intro b hb
  rw [List.mem_join] at hb
  obtain ⟨f', hf', hbf⟩ := hb
  obtain ⟨f, hf, hff'⟩ := forall2_exists_left h f' hf'
  obtain ⟨a, ha, hr⟩ := forall2_exists_left hff' b hbf
  exact ⟨a, List.mem_join.mpr ⟨f, hf, ha⟩, hr⟩

/-- A traced value refers to a copied object, hence is valid in the
destination Space. -/
theorem rewritten_valid {src : SpaceM} {pend : Option Nat} {g : GcState}
    (inv : Inv src pend g) {v w : TVal} (hr : rewrittenVal g.fwd v w) :
    TVal.validB g.dest w = true := by
  cases v with
  | obj a =>
    obtain ⟨n, hn, hw⟩ := hr
    subst hw
    have hmem : n ∈ g.fwd.map Prod.snd :=
      List.mem_map.mpr ⟨(a, n), lookup_mem hn, rfl⟩
    rw [← pairs_keys inv] at hmem
    show (lookup g.dest.objs n).isSome = true
    exact (lookup_isSome_iff_mem_keys _ _).mpr hmem
  | num bits => rw [hr]; rfl
  | vnull => rw [hr]; rfl
  | vbool b => rw [hr]; rfl

/-- A valid cause record makes every destination object reachable in the
post-collection heap, by strong induction on the object's position: a
root cause is a direct root reference, a parent cause points at an
earlier object whose reachability is the induction hypothesis. -/
theorem causes_reach {h' : HeapM} {g : GcState} {R : List TVal}
    {causes : List Cause} (hca : causeOk R none g causes)
    (hspace : h'.space.objs = g.dest.objs)
    (hnd : (g.dest.objs.map Prod.fst).Nodup)
    (hR : ∀ v ∈ R, ∀ a, v = TVal.obj a → Reaches h' a) :
    ∀ k q, g.dest.objs.get? k = some q → Reaches h' q.1 := by
  intro k
  induction k using Nat.strong_induction_on with
  | _ k ih =>
    intro q hq
    have hk : k < causes.length := by
      have hlen := hca.1
      have hkobj : k < g.dest.objs.length := by
        by_contra hno
        rw [List.get?_eq_none.mpr (Nat.not_lt.mp hno)] at hq
        cases hq
      omega
    cases hcc : causes.get? k with
    | none =>
      rw [List.get?_eq_none] at hcc
      omega
    | some c =>
      have hv := hca.2 k c hcc
      cases c with
      | root i =>
        obtain ⟨n, hdk, hRi⟩ := hv
        have hqn : q.1 = n := by
          unfold destKey at hdk
          rw [hq] at hdk
          simpa using hdk
        rw [hqn]
        exact hR _ (List.get?_mem hRi) n rfl
      | parent j =>
        obtain ⟨hjk, n, pk, po, h1, h2, h3, h4, h5, h6⟩ := hv
        have hqn : q.1 = n := by
          unfold destKey at h1
          rw [hq] at h1
          simpa using h1
        have hentry : ∃ q', g.dest.objs.get? j = some q'
            ∧ q'.1 = pk ∧ q'.2 = po := by
          unfold destKey at h2
          unfold destHObj at h3
          cases hgj : g.dest.objs.get? j with
          | none => rw [hgj] at h2; cases h2
          | some q' =>
            rw [hgj] at h2 h3
            exact ⟨q', rfl, by simpa using h2, by simpa using h3⟩
        obtain ⟨q', hgj, hq'1, hq'2⟩ := hentry
        have hreach_pk : Reaches h' pk := by
          rw [← hq'1]
          exact ih j hjk q' hgj
        have hlook : lookup h'.space.objs pk = some po := by
          rw [hspace]
          have hq'eq : q' = (pk, po) := by
            obtain ⟨q1, q2⟩ := q'
            simp only at hq'1 hq'2
            rw [hq'1, hq'2]
          rw [hq'eq] at hgj
          exact mem_lookup_of_nodup hnd (List.get?_mem hgj)
        rw [hqn]
        exact Reaches.field n pk po hreach_pk hlook h6

/-- (M1, first half) `Heap::collect` on a well-formed heap: the
survivors always fit (their footprints are a subset of the source
occupancy), the resulting heap is well-formed, every surviving object is
reachable from the new roots, the forwarding map covers every address
reachable from the old roots, and `used()` becomes the summed footprint
of the forwarded source objects. -/
theorem collect_ok (h : HeapM) (hwf : h.wf) :
    ∃ (h' : HeapM) (F : List (Nat × Nat)),
      h.collect = some h'
      ∧ h'.wf
      ∧ (∀ p ∈ h'.space.objs, Reaches h' p.1)
      ∧ (F.map Prod.fst).Nodup
      ∧ (∀ k ∈ F.map Prod.fst, (lookup h.space.objs k).isSome)
      ∧ (∀ a, Reaches h a → (lookup F a).isSome)
      ∧ h'.used = ((F.map Prod.fst).map (srcAllocAt h.space)).sum := by
  obtain ⟨hsp, hscopes, hglobals, hweaks, hfields⟩ := hwf
  have hinv₀ : Inv h.space none ⟨SpaceM.new h.space.size, [], []⟩ := by
    refine ⟨⟨trivial, rfl, Nat.zero_le _, hsp.2.2.2⟩, hsp.2.2.1,
      List.nodup_nil, .nil, ?_, ?_, ?_, List.nodup_nil, ?_⟩
    · intro p hp _
      simp at hp
    · intro p hp _ _
      simp at hp
    · intro n hn
      simp at hn
    · intro d hd
      cases hd
  have hca₀ : causeOk [] none ⟨SpaceM.new h.space.size, [], []⟩ [] := by
    refine ⟨rfl, ?_⟩
    intro k c hc
    simp at hc
  obtain ⟨g₁, globals', heq₁, hinv₁, ⟨ext₁, hca₁⟩, hstep₁, hrw₁⟩ :=
    traceMaybeVals_ok h.space none hsp h.globals [] [] _ hinv₀ hca₀ hglobals
  obtain ⟨g₂, scopes', heq₂, hinv₂, ⟨ext₂, hca₂⟩, hstep₂, hrw₂⟩ :=
    traceScopes_ok h.space none hsp h.scopes ([] ++ globals'.filterMap id)
      ([] ++ ext₁) g₁ hinv₁ hca₁ hscopes
  obtain ⟨g₃, heq₃, hinv₃, ⟨ext₃, hca₃⟩, hpre₃, hq₃, -⟩ :=
    drain_ok h.space hsp hfields (h.space.objs.length + g₂.queue.length)
      ([] ++ globals'.filterMap id ++ scopes'.join) ([] ++ ext₁ ++ ext₂) g₂
      hinv₂ hca₂ (by omega)
  obtain ⟨weaks', doomed, heq₄, hweak'⟩ :=
    updateWeak_ok h.space g₃.fwd h.weaks hweaks
  have hndF : (g₃.fwd.map Prod.fst).Nodup := hinv₃.fNodup
  have hkeys₃ : (g₃.dest.objs.map Prod.fst).Nodup := dest_keys_nodup hinv₃
  have hpre₁₃ : g₁.fwd.IsPrefix g₃.fwd := hstep₂.1.trans hpre₃
  refine ⟨⟨g₃.dest, scopes', globals', weaks',
      doomed.foldl removeEntry h.natives, h.nextNative⟩,
      g₃.fwd, ?_, ?_, ?_, hndF, ?_, ?_, ?_⟩
  · -- the run of collect
    unfold HeapM.collect collectWith
    simp only [heq₁, heq₂, heq₃, heq₄]
  · -- the post-collection heap is well-formed
    refine ⟨hinv₃.dWf, ?_, ?_, ?_, ?_⟩
    · intro frame' hf' v' hv'
      obtain ⟨v, -, hr⟩ := forall2_join_left hrw₂ v'
        (List.mem_join.mpr ⟨frame', hf', hv'⟩)
      exact rewritten_valid hinv₃ (rewrittenVal_mono hpre₃ hndF hr)
    · intro og' hog'
      obtain ⟨og, -, hr⟩ := forall2_exists_left hrw₁ og' hog'
      cases og with
      | none => rw [hr]; rfl
      | some v =>
        obtain ⟨v', hog'eq, hrv⟩ := hr
        rw [hog'eq]
        exact rewritten_valid hinv₃ (rewrittenVal_mono hpre₁₃ hndF hrv)
    · intro v hv
      obtain ⟨a, n, hn, hveq⟩ := hweak' v hv
      rw [hveq]
      have hmem : n ∈ g₃.fwd.map Prod.snd :=
        List.mem_map.mpr ⟨(a, n), lookup_mem hn, rfl⟩
      rw [← pairs_keys hinv₃] at hmem
      show (lookup g₃.dest.objs n).isSome = true
      exact (lookup_isSome_iff_mem_keys _ _).mpr hmem
    · intro p hp v hv
      obtain ⟨fp, hfp, hcr⟩ := forall2_exists_left hinv₃.pairs p hp
      obtain ⟨o, o', ho, ho', hfor⟩ := hinv₃.fieldsTraced fp hfp
        (by rw [hq₃]; exact List.not_mem_nil _) (by simp)
      have hlp : lookup g₃.dest.objs p.1 = some p.2 := by
        obtain ⟨p1, p2⟩ := p
        exact mem_lookup_of_nodup hkeys₃ hp
      rw [hcr.1] at ho'
      rw [hlp] at ho'
      cases ho'
      obtain ⟨w, -, hr⟩ := forall2_exists_left hfor v hv
      exact rewritten_valid hinv₃ hr
  · -- every survivor is reachable from the new roots
    intro p hp
    obtain ⟨k, hk⟩ := List.mem_iff_get?.mp hp
    refine causes_reach hca₃ rfl hkeys₃ ?_ k p hk
    intro v hvR a hva
    subst hva
    rcases List.mem_append.mp hvR with hvR | hvR
    · rcases List.mem_append.mp hvR with hvR | hvR
      · simp at hvR
      · have : some (TVal.obj a) ∈ globals' := by
          obtain ⟨x, hx, hxe⟩ := List.mem_filterMap.mp hvR
          rw [show x = some (TVal.obj a) from hxe] at hx
          exact hx
        exact Reaches.globalRoot a this
    · exact Reaches.scopeRoot a hvR
  · -- forwarded keys are source objects
    intro k hk
    obtain ⟨fp, hfp, hfpk⟩ := List.mem_map.mp hk
    obtain ⟨q, hcr⟩ := forall2_mem_left hinv₃.pairs fp hfp
    obtain ⟨-, o, ho, -, -⟩ := hcr
    rw [← hfpk, ho]
    rfl
  · -- the forwarding map covers everything reachable from the old roots
    intro a hreach
    induction hreach with
    | scopeRoot a ha =>
      obtain ⟨w, -, hr⟩ := forall2_join_right hrw₂ (TVal.obj a) ha
      obtain ⟨n, hn, -⟩ := hr
      rw [lookup_grow hpre₃ hndF hn]
      rfl
    | globalRoot a ha =>
      obtain ⟨og', -, hr⟩ := forall2_exists_right hrw₁ (some (TVal.obj a)) ha
      obtain ⟨v', -, hrv⟩ := hr
      obtain ⟨n, hn, -⟩ := hrv
      rw [lookup_grow hpre₁₃ hndF hn]
      rfl
    | field a b o hrb hlook hmem ih =>
      cases hm : lookup g₃.fwd b with
      | none => rw [hm] at ih; cases ih
      | some m =>
        obtain ⟨o₁, o₁', ho₁, ho₁', hfor⟩ := hinv₃.fieldsTraced (b, m)
          (lookup_mem hm) (by rw [hq₃]; exact List.not_mem_nil _) (by simp)
        have hoo : o₁ = o := by
          change lookup h.space.objs b = some o₁ at ho₁
          rw [hlook] at ho₁
          cases ho₁
          rfl
        rw [hoo] at hfor
        obtain ⟨w, -, hr⟩ := forall2_exists_right hfor (TVal.obj a) hmem
        obtain ⟨n, hn, -⟩ := hr
        rw [hn]
        rfl
  · -- used() is the summed footprint of the forwarded source objects
    exact dest_next_eq_copied_sum hinv₃

/-- (M1, second half) On a well-formed heap whose objects are all
reachable from its roots, `collect()` is a used()-preserving operation:
the survivors are exactly the objects already present, so the summed
footprints agree with the source occupancy. -/
theorem collect_preserves_used (h : HeapM) (hwf : h.wf)
    (hlive : ∀ p ∈ h.space.objs, Reaches h p.1) :
    ∀ h', h.collect = some h' → h'.used = h.used := by
  obtain ⟨h'', F, heq, -, -, hFnd, hFval, hFcover, hused⟩ := collect_ok h hwf
  intro h' hh'
  rw [heq] at hh'
  cases hh'
  have hsrcnd : (h.space.objs.map Prod.fst).Nodup :=
    layoutOk_keys_nodup 0 _ hwf.1.1
  have hsub₁ : F.map Prod.fst ⊆ h.space.objs.map Prod.fst := by
    intro k hk
    exact (lookup_isSome_iff_mem_keys _ _).mp (hFval k hk)
  have hsub₂ : h.space.objs.map Prod.fst ⊆ F.map Prod.fst := by
    intro k hk
    obtain ⟨p, hp, hpk⟩ := List.mem_map.mp hk
    rw [← hpk]
    exact (lookup_isSome_iff_mem_keys _ _).mp (hFcover p.1 (hlive p hp))
  have hperm : (F.map Prod.fst).Perm (h.space.objs.map Prod.fst) :=
    (hFnd.subperm hsub₁).antisymm (hsrcnd.subperm hsub₂)
  calc h''.used
      = ((F.map Prod.fst).map (srcAllocAt h.space)).sum := hused
    _ = ((h.space.objs.map Prod.fst).map (srcAllocAt h.space)).sum :=
        (hperm.map (srcAllocAt h.space)).sum_eq
    _ = (h.space.objs.map fun p => allocSize p.2).sum :=
        lookupAlloc_keys_sum _ hsrcnd
    _ = h.used := by
        have h2 := hwf.1.2.1
        rw [layoutEnd_eq_sum] at h2
        show _ = h.space.next
        omega

/-- Claim C2.  For every well-formed heap whose root set is unchanged
between two consecutive successful calls to `collect()`, `used()` after
the second call equals `used()` after the first: the first collection
leaves a heap every object of which is reachable from its (rewritten)
roots, so the second collection copies exactly those objects again and
consumes exactly the same number of bytes. -/
theorem collect_twice_used (h h₁ h₂ : HeapM) (hwf : h.wf)
    (hc1 : h.collect = some h₁) (hc2 : h₁.collect = some h₂) :
    h₂.used = h₁.used := by
  obtain ⟨h₁', F, heq, hwf₁, hlive₁, -, -, -, -⟩ := collect_ok h hwf
  rw [heq] at hc1
  injection hc1 with he
  rw [← he] at hc2 ⊢
  exact collect_preserves_used h₁' hwf₁ hlive₁ h₂ hc2

/-- Well-formed heap with a rooted 48-byte object and a second,
unreachable 48-byte object that the first collection frees. -/
def twoObjHeap : HeapM :=
  { space := ⟨200, 96, [(32, ⟨16, .host, 0, []⟩), (80, ⟨16, .host, 1, []⟩)]⟩,
    scopes := [[TVal.obj 32]], globals := [], weaks := [TVal.obj 32, TVal.obj 80],
    natives := [(0, .stringTy), (1, .stringTy)], nextNative := 2 }

/-- What `twoObjHeap` collects to: the unreachable object is dropped
(along with its weaks entry and its boxed native), `used()` falls from
96 to 48, and a second collection finds the same 48 bytes. -/
def twoObjCollected : HeapM :=
  { space := ⟨200, 48, [(32, ⟨16, .host, 0, []⟩)]⟩,
    scopes := [[TVal.obj 32]], globals := [], weaks := [TVal.obj 32],
    natives := [(0, .stringTy)], nextNative := 2 }

theorem collect_twice_used_witness :
    twoObjHeap.wf
    ∧ twoObjHeap.used = 96
    ∧ twoObjCollected.used = 48
    ∧ HeapM.used twoObjCollected = HeapM.used twoObjCollected :=
  ⟨by decide, rfl, rfl,
    collect_twice_used twoObjHeap twoObjCollected twoObjCollected
      (by decide) (by decide) (by decide)⟩

/-- Claim C1, amended.  The abort policy the claim describes is not what
the code does on an undersized destination — `ObjectVisitor::visit`
unwraps the destination allocation, so a too-small destination is a
panic, not a `NoSpace` return (see the counterexample
`collect_dest_too_small_panics`).  What is true of `collect()` itself:
the destination Space is created with the very capacity of the source
(`Space::new(space.size)`, heap.rs:88), the survivors' footprints are a
subset of the source occupancy, and hence on a well-formed heap the
collection always succeeds — the undersized-destination situation is
unreachable through `collect()`. -/
theorem collect_succeeds (h : HeapM) (hwf : h.wf) :
    ∃ h', h.collect = some h' := by
  obtain ⟨h', F, heq, -, -, -, -, -, -⟩ := collect_ok h hwf
  exact ⟨h', heq⟩

theorem collect_succeeds_witness :
    oneObjHeap.wf ∧ ∃ h', oneObjHeap.collect = some h' :=
  ⟨by decide, collect_succeeds oneObjHeap (by decide)⟩

end Vmgc
